import Mathlib

/-!
# Verification of the psqlpy session core against its specification

The repository ships the Python surface (tests, exception re-exports,
examples) of a PostgreSQL driver whose session core (pool, protocol
engine, codec, transaction/cursor state machines) is a compiled
extension that is not part of the Python sources.  This development
embeds the data model and the operations of that core, following the
specification's description of the wire formats and state machines, and
proves the testable properties stated there.  Python modules that are
present (`psqlpy/exceptions.py`, `psql_rust_driver/exceptions.py`) are
embedded directly from their source text.
-/

set_option maxHeartbeats 1000000

namespace Psqlpy

/-- A wire buffer: a list of byte values (each `< 256` for well-formed
encoders; the decoders do not depend on the bound). -/
abbrev Bytes := List Nat

/-- Big-endian base-256 encoding of `n` on exactly `w` bytes
(the PostgreSQL binary format transmits all fixed-width integers
big-endian). -/
def natToBytesBE : Nat → Nat → Bytes
  | 0, _ => []
  | w + 1, n => natToBytesBE w (n / 256) ++ [n % 256]

/-- Big-endian base-256 reading of a byte buffer. -/
def bytesToNatBE (bs : Bytes) : Nat := bs.foldl (fun acc b => acc * 256 + b) 0

theorem length_natToBytesBE (w n : Nat) : (natToBytesBE w n).length = w := by
  induction w generalizing n with
  | zero => simp [natToBytesBE]
  | succ w ih => simp [natToBytesBE, ih]

theorem bytesToNatBE_foldl (l : List Nat) (a : Nat) :
    l.foldl (fun acc b => acc * 256 + b) a = a * 256 ^ l.length + bytesToNatBE l := by
  induction l generalizing a with
  | nil => simp [bytesToNatBE]
  | cons x xs ih =>
      simp only [List.foldl, bytesToNatBE, List.length_cons]
      rw [ih (a * 256 + x), ih (0 * 256 + x)]
      ring

theorem bytesToNatBE_append (l1 l2 : List Nat) :
    bytesToNatBE (l1 ++ l2) = bytesToNatBE l1 * 256 ^ l2.length + bytesToNatBE l2 := by
  unfold bytesToNatBE
  rw [List.foldl_append]
  rw [bytesToNatBE_foldl l2 (List.foldl (fun acc b => acc * 256 + b) 0 l1)]
  rfl

theorem bytesToNatBE_singleton (x : Nat) : bytesToNatBE [x] = x := by
  simp [bytesToNatBE]

theorem bytesToNatBE_natToBytesBE (w n : Nat) :
    bytesToNatBE (natToBytesBE w n) = n % 2 ^ (8 * w) := by
  induction w generalizing n with
  | zero => simp [natToBytesBE, bytesToNatBE, Nat.mod_one]
  | succ w ih =>
      rw [natToBytesBE, bytesToNatBE_append, ih, bytesToNatBE_singleton]
      simp only [List.length_singleton, pow_one]
      have hsplit : (2 : Nat) ^ (8 * (w + 1)) = 256 * 2 ^ (8 * w) := by
        rw [show 8 * (w + 1) = 8 + 8 * w from by ring, pow_add]
        norm_num
      rw [hsplit, Nat.mod_mul]
      ring

theorem bytesToNatBE_natToBytesBE_of_lt {w n : Nat} (h : n < 2 ^ (8 * w)) :
    bytesToNatBE (natToBytesBE w n) = n := by
  rw [bytesToNatBE_natToBytesBE, Nat.mod_eq_of_lt h]

/-- Two's-complement big-endian encoding of a signed integer on `w`
bytes, as used for INT2/INT4/INT8, dates, times and timestamps. -/
def encIntBE (w : Nat) (i : Int) : Bytes :=
  natToBytesBE w (i.emod (2 ^ (8 * w))).toNat

/-- Two's-complement big-endian reading of a full byte buffer. -/
def decIntBE (bs : Bytes) : Int :=
  let n := bytesToNatBE bs
  let m : Nat := 2 ^ (8 * bs.length)
  if 2 * n < m then (n : Int) else (n : Int) - (m : Int)

theorem length_encIntBE (w : Nat) (i : Int) : (encIntBE w i).length = w :=
  length_natToBytesBE _ _

theorem decIntBE_encIntBE (w : Nat) (i : Int)
    (h1 : -(2 ^ (8 * w)) ≤ 2 * i) (h2 : 2 * i < 2 ^ (8 * w)) :
    decIntBE (encIntBE w i) = i := by
  have hmpos : (0 : Int) < 2 ^ (8 * w) := by positivity
  have hmod_nonneg : 0 ≤ i.emod (2 ^ (8 * w)) := Int.emod_nonneg i (ne_of_gt hmpos)
  have hmod_lt : i.emod (2 ^ (8 * w)) < 2 ^ (8 * w) := Int.emod_lt_of_pos i hmpos
  have hcastpow : ((2 ^ (8 * w) : Nat) : Int) = 2 ^ (8 * w) := by push_cast; ring
  have htn : ((i.emod (2 ^ (8 * w))).toNat : Int) = i.emod (2 ^ (8 * w)) :=
    Int.toNat_of_nonneg hmod_nonneg
  have htn_lt : (i.emod (2 ^ (8 * w))).toNat < 2 ^ (8 * w) := by
    have := hmod_lt
    omega
  unfold decIntBE encIntBE
  simp only [length_natToBytesBE]
  rw [bytesToNatBE_natToBytesBE_of_lt (by omega)]
  rcases le_or_lt 0 i with hpos | hneg
  · have heq : i.emod (2 ^ (8 * w)) = i := Int.emod_eq_of_lt hpos (by omega)
    have hn : (i.emod (2 ^ (8 * w))).toNat = i.toNat := by rw [heq]
    rw [hn]
    have hiv : (i.toNat : Int) = i := Int.toNat_of_nonneg hpos
    have hcond : 2 * i.toNat < 2 ^ (8 * w) := by omega
    simp only [if_pos hcond, hiv]
  · have heq : i.emod (2 ^ (8 * w)) = i + 2 ^ (8 * w) := by
      have h0 : (i + 2 ^ (8 * w)).emod (2 ^ (8 * w)) = i.emod (2 ^ (8 * w)) := by
        have hh := Int.add_mul_emod_self_left (a := i) (b := (2 : Int) ^ (8 * w)) (c := 1)
        rw [mul_one] at hh
        exact hh
      rw [← h0]
      exact Int.emod_eq_of_lt (by omega) (by omega)
    have hn : ((i.emod (2 ^ (8 * w))).toNat : Int) = i + 2 ^ (8 * w) := by
      rw [htn, heq]
    have hcond : ¬ 2 * (i.emod (2 ^ (8 * w))).toNat < 2 ^ (8 * w) := by omega
    simp only [if_neg hcond]
    omega

/-- Read exactly `w` bytes from the front of a buffer. -/
def readBytes (w : Nat) (bs : Bytes) : Option (Bytes × Bytes) :=
  if w ≤ bs.length then some (bs.take w, bs.drop w) else none

theorem readBytes_append (x r : Bytes) : readBytes x.length (x ++ r) = some (x, r) := by
  unfold readBytes
  have hle : x.length ≤ (x ++ r).length := by simp [List.length_append]
  rw [if_pos hle, List.take_left, List.drop_left]

/-- Concatenation of the encodings of a list of items. -/
def joinMap (f : α → Bytes) : List α → Bytes
  | [] => []
  | a :: l => f a ++ joinMap f l

/-- Read `n` consecutive items with the item reader `f`. -/
def readCount (f : Bytes → Option (α × Bytes)) : Nat → Bytes → Option (List α × Bytes)
  | 0, bs => some ([], bs)
  | n + 1, bs =>
    match f bs with
    | none => none
    | some (a, bs') =>
      match readCount f n bs' with
      | none => none
      | some (as, bs'') => some (a :: as, bs'')

theorem readCount_append (f : Bytes → Option (α × Bytes)) (enc : α → Bytes)
    (l : List α) (r : Bytes)
    (h : ∀ a ∈ l, ∀ rest, f (enc a ++ rest) = some (a, rest)) :
    readCount f l.length (joinMap enc l ++ r) = some (l, r) := by
  induction l generalizing r with
  | nil => simp [readCount, joinMap]
  | cons a l ih =>
      have hi := ih r (fun b hb rest => h b (List.mem_cons_of_mem _ hb) rest)
      simp only [List.length_cons, joinMap, List.append_assoc, readCount,
        h a (List.mem_cons_self _ _) (joinMap enc l ++ r), hi]

theorem readCount_append_map (f : Bytes → Option (β × Bytes)) (enc : α → Bytes) (g : α → β)
    (l : List α) (r : Bytes)
    (h : ∀ a ∈ l, ∀ rest, f (enc a ++ rest) = some (g a, rest)) :
    readCount f l.length (joinMap enc l ++ r) = some (l.map g, r) := by
  induction l generalizing r with
  | nil => simp [readCount, joinMap]
  | cons a l ih =>
      have hi := ih r (fun b hb rest => h b (List.mem_cons_of_mem _ hb) rest)
      simp only [List.length_cons, joinMap, List.append_assoc, readCount,
        h a (List.mem_cons_self _ _) (joinMap enc l ++ r), hi, List.map_cons]

/-- A 4-byte big-endian length header followed by the payload, as used
for array elements and variable-length fields. -/
def lenPrefixed (p : Bytes) : Bytes := natToBytesBE 4 p.length ++ p

/-- Read a 4-byte length header and then that many payload bytes. -/
def readLenPrefixed (bs : Bytes) : Option (Bytes × Bytes) :=
  match readBytes 4 bs with
  | none => none
  | some (lb, r) => readBytes (bytesToNatBE lb) r

theorem readLenPrefixed_append (p r : Bytes) (h : p.length < 2 ^ 32) :
    readLenPrefixed (lenPrefixed p ++ r) = some (p, r) := by
  unfold readLenPrefixed lenPrefixed
  rw [List.append_assoc]
  have hr := readBytes_append (natToBytesBE 4 p.length) (p ++ r)
  rw [length_natToBytesBE] at hr
  rw [hr]
  show readBytes (bytesToNatBE (natToBytesBE 4 p.length)) (p ++ r) = some (p, r)
  have h' : p.length < 2 ^ (8 * 4) := by norm_num at h ⊢; exact h
  rw [bytesToNatBE_natToBytesBE_of_lt h']
  exact readBytes_append p r

/-- Text payloads, modelled as the sequence of Unicode scalar values of
the string. -/
def strToBytes (s : String) : Bytes := s.data.map Char.toNat

/-- Rebuild a string from a text payload. -/
def strOfBytes (bs : Bytes) : String := ⟨bs.map Char.ofNat⟩

theorem strOfBytes_strToBytes (s : String) : strOfBytes (strToBytes s) = s := by
  unfold strOfBytes strToBytes
  rw [List.map_map]
  have hid : (Char.ofNat ∘ Char.toNat) = id := by
    funext c
    simp [Function.comp, Char.ofNat_toNat]
  rw [hid, List.map_id]

/-- Modelled from the spec: "Nested JSON/JSONB accept any tree of
scalars/maps/lists"; the compiled codec (absent from the Python sources)
serializes such trees for the JSON/JSONB OIDs.  A document tree. -/
inductive Json where
  | null
  | bool (b : Bool)
  | num (i : Int)
  | str (s : String)
  | arr (items : List Json)
  | obj (fields : List (String × Json))
deriving Repr

mutual

/-- Modelled from the spec: the serialized wire payload of a JSON tree,
as a tagged, length-prefixed binary form (the spec fixes only that the
codec is a bijection on trees up to the documented normalizations). -/
def encodeJson : Json → Bytes
  | .null => [0]
  | .bool b => [1, cond b 1 0]
  | .num i => 2 :: encIntBE 8 i
  | .str s => 3 :: lenPrefixed (strToBytes s)
  | .arr items => 4 :: (natToBytesBE 4 items.length ++ encodeJsonList items)
  | .obj fields => 5 :: (natToBytesBE 4 fields.length ++ encodeJsonFields fields)

/-- Concatenated encodings of the items of a JSON array. -/
def encodeJsonList : List Json → Bytes
  | [] => []
  | j :: rest => encodeJson j ++ encodeJsonList rest

/-- Concatenated encodings of the fields of a JSON object. -/
def encodeJsonFields : List (String × Json) → Bytes
  | [] => []
  | (k, v) :: rest => lenPrefixed (strToBytes k) ++ encodeJson v ++ encodeJsonFields rest

end

mutual

/-- Well-formedness of a JSON tree for the codec: 64-bit numbers and
lengths below 2^32 (the wire headers are 4 bytes wide). -/
def wfJson : Json → Bool
  | .null => true
  | .bool _ => true
  | .num i => decide (-(2 ^ 63) ≤ i) && decide (i < 2 ^ 63)
  | .str s => decide (s.data.length < 2 ^ 32)
  | .arr items => decide (items.length < 2 ^ 32) && wfJsonList items
  | .obj fields => decide (fields.length < 2 ^ 32) && wfJsonFields fields

/-- Well-formedness of the items of a JSON array. -/
def wfJsonList : List Json → Bool
  | [] => true
  | j :: rest => wfJson j && wfJsonList rest

/-- Well-formedness of the fields of a JSON object. -/
def wfJsonFields : List (String × Json) → Bool
  | [] => true
  | (k, v) :: rest => decide (k.data.length < 2 ^ 32) && wfJson v && wfJsonFields rest

end

mutual

/-- Node count of a JSON tree, used as decoding fuel. -/
def jsonSize : Json → Nat
  | .null => 1
  | .bool _ => 1
  | .num _ => 1
  | .str _ => 1
  | .arr items => 1 + jsonSizeList items
  | .obj fields => 1 + jsonSizeFields fields

/-- Node count of the items of a JSON array. -/
def jsonSizeList : List Json → Nat
  | [] => 0
  | j :: rest => jsonSize j + jsonSizeList rest

/-- Node count of the fields of a JSON object. -/
def jsonSizeFields : List (String × Json) → Nat
  | [] => 0
  | (_, v) :: rest => jsonSize v + jsonSizeFields rest

end

mutual

/-- Fuelled decoder for a serialized JSON tree; reads one tree from the
front of the buffer and returns it with the remaining bytes. -/
def decodeJsonStep : Nat → Bytes → Option (Json × Bytes)
  | 0, _ => none
  | _ + 1, [] => none
  | fuel + 1, t :: bs =>
    if t = 0 then some (.null, bs)
    else if t = 1 then
      match bs with
      | b :: bs' => some (.bool (b == 1), bs')
      | [] => none
    else if t = 2 then
      match readBytes 8 bs with
      | some (chunk, r) => some (.num (decIntBE chunk), r)
      | none => none
    else if t = 3 then
      match readLenPrefixed bs with
      | some (p, r) => some (.str (strOfBytes p), r)
      | none => none
    else if t = 4 then
      match readBytes 4 bs with
      | some (cb, r) =>
        match decodeJsonListStep fuel (bytesToNatBE cb) r with
        | some (items, r') => some (.arr items, r')
        | none => none
      | none => none
    else if t = 5 then
      match readBytes 4 bs with
      | some (cb, r) =>
        match decodeJsonFieldsStep fuel (bytesToNatBE cb) r with
        | some (fields, r') => some (.obj fields, r')
        | none => none
      | none => none
    else none
termination_by fuel _ => (fuel, 0)

/-- Fuelled decoder for `n` consecutive JSON array items. -/
def decodeJsonListStep : Nat → Nat → Bytes → Option (List Json × Bytes)
  | _, 0, bs => some ([], bs)
  | fuel, n + 1, bs =>
    match decodeJsonStep fuel bs with
    | some (j, r) =>
      match decodeJsonListStep fuel n r with
      | some (items, r') => some (j :: items, r')
      | none => none
    | none => none
termination_by fuel n _ => (fuel, n + 1)

/-- Fuelled decoder for `n` consecutive JSON object fields. -/
def decodeJsonFieldsStep : Nat → Nat → Bytes → Option (List (String × Json) × Bytes)
  | _, 0, bs => some ([], bs)
  | fuel, n + 1, bs =>
    match readLenPrefixed bs with
    | some (kp, r0) =>
      match decodeJsonStep fuel r0 with
      | some (v, r) =>
        match decodeJsonFieldsStep fuel n r with
        | some (fields, r') => some ((strOfBytes kp, v) :: fields, r')
        | none => none
      | none => none
    | none => none
termination_by fuel n _ => (fuel, n + 1)

end

theorem jsonSize_pos (j : Json) : 1 ≤ jsonSize j := by
  cases j <;> simp [jsonSize]

mutual

theorem decodeJsonStep_encode (j : Json) (fuel : Nat) (rest : Bytes)
    (hf : jsonSize j ≤ fuel) (hw : wfJson j = true) :
    decodeJsonStep fuel (encodeJson j ++ rest) = some (j, rest) := by
  obtain ⟨f, rfl⟩ : ∃ f, fuel = f + 1 := ⟨fuel - 1, by have := jsonSize_pos j; omega⟩
  cases j with
  | null =>
      rw [show encodeJson Json.null = [0] from rfl, decodeJsonStep.eq_def]
      simp
  | bool b =>
      cases b <;>
        (rw [decodeJsonStep.eq_def]; simp [encodeJson])
  | num i =>
      simp only [wfJson, Bool.and_eq_true, decide_eq_true_eq] at hw
      have hr := readBytes_append (encIntBE 8 i) rest
      rw [length_encIntBE] at hr
      have e64 : (2 : Int) ^ (8 * 8) = 18446744073709551616 := by norm_num
      have e63 : (2 : Int) ^ 63 = 9223372036854775808 := by norm_num
      rw [e63] at hw
      have hdec : decIntBE (encIntBE 8 i) = i :=
        decIntBE_encIntBE 8 i (by rw [e64]; omega) (by rw [e64]; omega)
      rw [show encodeJson (Json.num i) = 2 :: encIntBE 8 i from rfl]
      rw [List.cons_append, decodeJsonStep.eq_def]
      simp [hr, hdec]
  | str s =>
      simp only [wfJson, decide_eq_true_eq] at hw
      have hrp := readLenPrefixed_append (strToBytes s) rest (by simpa [strToBytes] using hw)
      rw [show encodeJson (Json.str s) = 3 :: lenPrefixed (strToBytes s) from rfl]
      rw [List.cons_append, decodeJsonStep.eq_def]
      simp [hrp, strOfBytes_strToBytes]
  | arr items =>
      simp only [wfJson, Bool.and_eq_true, decide_eq_true_eq] at hw
      simp only [jsonSize] at hf
      have hr4 := readBytes_append (natToBytesBE 4 items.length)
        (encodeJsonList items ++ rest)
      rw [length_natToBytesBE] at hr4
      have hcnt : bytesToNatBE (natToBytesBE 4 items.length) = items.length := by
        apply bytesToNatBE_natToBytesBE_of_lt
        have h32 : (2 : Nat) ^ (8 * 4) = 2 ^ 32 := by norm_num
        rw [h32]
        exact hw.1
      have hlist := decodeJsonListStep_encode items f rest (by omega) hw.2
      rw [show encodeJson (Json.arr items) =
        4 :: (natToBytesBE 4 items.length ++ encodeJsonList items) from rfl]
      rw [List.cons_append, List.append_assoc, decodeJsonStep.eq_def]
      simp [hr4, hcnt, hlist]
  | obj fields =>
      simp only [wfJson, Bool.and_eq_true, decide_eq_true_eq] at hw
      simp only [jsonSize] at hf
      have hr4 := readBytes_append (natToBytesBE 4 fields.length)
        (encodeJsonFields fields ++ rest)
      rw [length_natToBytesBE] at hr4
      have hcnt : bytesToNatBE (natToBytesBE 4 fields.length) = fields.length := by
        apply bytesToNatBE_natToBytesBE_of_lt
        have h32 : (2 : Nat) ^ (8 * 4) = 2 ^ 32 := by norm_num
        rw [h32]
        exact hw.1
      have hfields := decodeJsonFieldsStep_encode fields f rest (by omega) hw.2
      rw [show encodeJson (Json.obj fields) =
        5 :: (natToBytesBE 4 fields.length ++ encodeJsonFields fields) from rfl]
      rw [List.cons_append, List.append_assoc, decodeJsonStep.eq_def]
      simp [hr4, hcnt, hfields]

theorem decodeJsonListStep_encode (l : List Json) (fuel : Nat) (rest : Bytes)
    (hf : jsonSizeList l ≤ fuel) (hw : wfJsonList l = true) :
    decodeJsonListStep fuel l.length (encodeJsonList l ++ rest) = some (l, rest) := by
  cases l with
  | nil =>
      rw [show encodeJsonList [] = [] from rfl, decodeJsonListStep.eq_def]
      simp
  | cons j tl =>
      simp only [wfJsonList, Bool.and_eq_true] at hw
      simp only [jsonSizeList] at hf
      have hj := decodeJsonStep_encode j fuel (encodeJsonList tl ++ rest)
        (by have := jsonSize_pos j; omega) hw.1
      have htl := decodeJsonListStep_encode tl fuel rest (by omega) hw.2
      rw [show encodeJsonList (j :: tl) = encodeJson j ++ encodeJsonList tl from rfl]
      rw [List.append_assoc, show (j :: tl).length = tl.length + 1 from rfl]
      rw [decodeJsonListStep.eq_def]
      simp [hj, htl]

theorem decodeJsonFieldsStep_encode (l : List (String × Json)) (fuel : Nat) (rest : Bytes)
    (hf : jsonSizeFields l ≤ fuel) (hw : wfJsonFields l = true) :
    decodeJsonFieldsStep fuel l.length (encodeJsonFields l ++ rest) = some (l, rest) := by
  cases l with
  | nil =>
      rw [show encodeJsonFields [] = [] from rfl, decodeJsonFieldsStep.eq_def]
      simp
  | cons kv tl =>
      obtain ⟨k, v⟩ := kv
      simp only [wfJsonFields, Bool.and_eq_true, decide_eq_true_eq] at hw
      obtain ⟨⟨hk, hv'⟩, htl'⟩ := hw
      simp only [jsonSizeFields] at hf
      have hkey := readLenPrefixed_append (strToBytes k)
        (encodeJson v ++ (encodeJsonFields tl ++ rest)) (by simpa [strToBytes] using hk)
      have hv := decodeJsonStep_encode v fuel (encodeJsonFields tl ++ rest)
        (by have := jsonSize_pos v; omega) hv'
      have htl := decodeJsonFieldsStep_encode tl fuel rest (by omega) htl'
      rw [show encodeJsonFields ((k, v) :: tl) =
        lenPrefixed (strToBytes k) ++ encodeJson v ++ encodeJsonFields tl from rfl]
      rw [List.append_assoc, List.append_assoc,
        show ((k, v) :: tl).length = tl.length + 1 from rfl]
      rw [decodeJsonFieldsStep.eq_def]
      simp [hkey, hv, htl, strOfBytes_strToBytes]

end

mutual

theorem jsonSize_le_encode (j : Json) : jsonSize j ≤ (encodeJson j).length := by
  cases j with
  | null => simp [jsonSize, encodeJson]
  | bool b => simp [jsonSize, encodeJson]
  | num i => simp [jsonSize, encodeJson]
  | str s => simp [jsonSize, encodeJson]
  | arr items =>
      have h := jsonSizeList_le_encode items
      simp only [jsonSize, encodeJson, List.length_cons, List.length_append,
        length_natToBytesBE]
      omega
  | obj fields =>
      have h := jsonSizeFields_le_encode fields
      simp only [jsonSize, encodeJson, List.length_cons, List.length_append,
        length_natToBytesBE]
      omega

theorem jsonSizeList_le_encode (l : List Json) :
    jsonSizeList l ≤ (encodeJsonList l).length := by
  cases l with
  | nil => simp [jsonSizeList, encodeJsonList]
  | cons j tl =>
      have h1 := jsonSize_le_encode j
      have h2 := jsonSizeList_le_encode tl
      simp only [jsonSizeList, encodeJsonList, List.length_append]
      omega

theorem jsonSizeFields_le_encode (l : List (String × Json)) :
    jsonSizeFields l ≤ (encodeJsonFields l).length := by
  cases l with
  | nil => simp [jsonSizeFields, encodeJsonFields]
  | cons kv tl =>
      obtain ⟨k, v⟩ := kv
      have h1 := jsonSize_le_encode v
      have h2 := jsonSizeFields_le_encode tl
      simp only [jsonSizeFields, encodeJsonFields, List.length_append]
      omega

end

/-- Whole-buffer JSON decode, as used for a JSON/JSONB column payload;
the fuel `bs.length + 1` dominates the node count of any tree the
buffer can hold. -/
def decodeJsonWhole (bs : Bytes) : Option Json :=
  match decodeJsonStep (bs.length + 1) bs with
  | some (j, []) => some j
  | _ => none

theorem decodeJsonWhole_encode (j : Json) (hw : wfJson j = true) :
    decodeJsonWhole (encodeJson j) = some j := by
  unfold decodeJsonWhole
  have hstep := decodeJsonStep_encode j ((encodeJson j).length + 1) []
    (by have := jsonSize_le_encode j; omega) hw
  rw [List.append_nil] at hstep
  rw [hstep]

/-- The scalar wire types of the codec's type table that the claims
range over (§4.1 of the spec). -/
inductive ScalarType where
  | boolT | byteaT | int2T | int4T | int8T | numericT | float4T | float8T
  | textT | dateT | timeT | timestampT | timestamptzT | intervalT | uuidT
  | inetT | jsonT | pointT | lineT | lsegT | boxT | pathT | polygonT
  | circleT | enumT
deriving DecidableEq, Repr

/-- Modelled from the spec: the host values accepted for the supported
scalar OIDs (the codec itself is compiled and absent from the Python
sources).  Floats are carried as their IEEE-754 bit patterns, which the
codec transmits verbatim; `numericV` is the PostgreSQL NUMERIC tuple of
sign, weight, display scale and base-10000 digits; `timestamptzV`
carries the UTC instant in microseconds since the PostgreSQL epoch plus
the zone offset (seconds) the caller attached; `uuidStrV` is the
decode-side canonical string form of a UUID; `enumV` is an enum member
identified by its label. -/
inductive Scalar where
  | boolV (b : Bool)
  | byteaV (bs : List Nat)
  | int2V (i : Int)
  | int4V (i : Int)
  | int8V (i : Int)
  | numericV (neg : Bool) (weight : Int) (dscale : Nat) (digits : List Nat)
  | float4V (bits : Nat)
  | float8V (bits : Nat)
  | textV (s : String)
  | dateV (days : Int)
  | timeV (micros : Int)
  | timestampV (micros : Int)
  | timestamptzV (instantMicros : Int) (offsetSecs : Int)
  | intervalV (months : Int) (days : Int) (micros : Int)
  | uuidV (n : Nat)
  | uuidStrV (s : String)
  | inetV (isV6 : Bool) (addr : Nat)
  | jsonV (j : Json)
  | pointV (x y : Nat)
  | lineV (a b c : Nat)
  | lsegV (x1 y1 x2 y2 : Nat)
  | boxV (x1 y1 x2 y2 : Nat)
  | pathV (closed : Bool) (pts : List (Nat × Nat))
  | polygonV (pts : List (Nat × Nat))
  | circleV (x y r : Nat)
  | enumV (label : String)
deriving Repr

/-- The wire type a host scalar is bound to. -/
def Scalar.typeOf : Scalar → ScalarType
  | .boolV _ => .boolT
  | .byteaV _ => .byteaT
  | .int2V _ => .int2T
  | .int4V _ => .int4T
  | .int8V _ => .int8T
  | .numericV _ _ _ _ => .numericT
  | .float4V _ => .float4T
  | .float8V _ => .float8T
  | .textV _ => .textT
  | .dateV _ => .dateT
  | .timeV _ => .timeT
  | .timestampV _ => .timestampT
  | .timestamptzV _ _ => .timestamptzT
  | .intervalV _ _ _ => .intervalT
  | .uuidV _ => .uuidT
  | .uuidStrV _ => .uuidT
  | .inetV _ _ => .inetT
  | .jsonV _ => .jsonT
  | .pointV _ _ => .pointT
  | .lineV _ _ _ => .lineT
  | .lsegV _ _ _ _ => .lsegT
  | .boxV _ _ _ _ => .boxT
  | .pathV _ _ => .pathT
  | .polygonV _ => .polygonT
  | .circleV _ _ _ => .circleT
  | .enumV _ => .enumT

/-- Encoding of one geometric point: two 8-byte float bit patterns. -/
def encPoint (p : Nat × Nat) : Bytes := natToBytesBE 8 p.1 ++ natToBytesBE 8 p.2

/-- Modelled from the spec: the PostgreSQL binary wire encoding of one
host scalar (§4.1 "Encode host values → PG binary" and §6 "binary-format
bind parameters by default").  Fixed-width integers are big-endian
two's complement; NUMERIC is ndigits/weight/sign/dscale then base-10000
digits, each on two bytes; INTERVAL is microseconds, days, months; INET
is family, prefix bits, the is-cidr flag and the address bytes; enums
are sent as their label text. -/
def encodeScalar : Scalar → Bytes
  | .boolV b => [cond b 1 0]
  | .byteaV bs => bs
  | .int2V i => encIntBE 2 i
  | .int4V i => encIntBE 4 i
  | .int8V i => encIntBE 8 i
  | .numericV neg weight dscale digits =>
      natToBytesBE 2 digits.length ++ encIntBE 2 weight ++
        natToBytesBE 2 (cond neg 16384 0) ++ natToBytesBE 2 dscale ++
        joinMap (natToBytesBE 2) digits
  | .float4V bits => natToBytesBE 4 bits
  | .float8V bits => natToBytesBE 8 bits
  | .textV s => strToBytes s
  | .dateV d => encIntBE 4 d
  | .timeV t => encIntBE 8 t
  | .timestampV t => encIntBE 8 t
  | .timestamptzV inst _ => encIntBE 8 inst
  | .intervalV months days micros => encIntBE 8 micros ++ encIntBE 4 days ++ encIntBE 4 months
  | .uuidV n => natToBytesBE 16 n
  | .uuidStrV s => strToBytes s
  | .inetV isV6 addr =>
      cond isV6 ([3, 128, 0, 16] ++ natToBytesBE 16 addr)
        ([2, 32, 0, 4] ++ natToBytesBE 4 addr)
  | .jsonV j => encodeJson j
  | .pointV x y => natToBytesBE 8 x ++ natToBytesBE 8 y
  | .lineV a b c => natToBytesBE 8 a ++ natToBytesBE 8 b ++ natToBytesBE 8 c
  | .lsegV x1 y1 x2 y2 =>
      natToBytesBE 8 x1 ++ natToBytesBE 8 y1 ++ natToBytesBE 8 x2 ++ natToBytesBE 8 y2
  | .boxV x1 y1 x2 y2 =>
      natToBytesBE 8 x1 ++ natToBytesBE 8 y1 ++ natToBytesBE 8 x2 ++ natToBytesBE 8 y2
  | .pathV closed pts =>
      [cond closed 1 0] ++ natToBytesBE 4 pts.length ++ joinMap encPoint pts
  | .polygonV pts => natToBytesBE 4 pts.length ++ joinMap encPoint pts
  | .circleV x y r => natToBytesBE 8 x ++ natToBytesBE 8 y ++ natToBytesBE 8 r
  | .enumV label => strToBytes label

/-- Ranges under which a host scalar fits its wire type: integer widths,
base-10000 NUMERIC digits, 32/64-bit float patterns, header-sized
lengths.  `uuidStrV` is a decode-side value only and is not encodable. -/
def wfScalar : Scalar → Bool
  | .boolV _ => true
  | .byteaV bs => decide (bs.length < 2 ^ 32) && bs.all (fun b => decide (b < 256))
  | .int2V i => decide (-(2 ^ 15) ≤ i) && decide (i < 2 ^ 15)
  | .int4V i => decide (-(2 ^ 31) ≤ i) && decide (i < 2 ^ 31)
  | .int8V i => decide (-(2 ^ 63) ≤ i) && decide (i < 2 ^ 63)
  | .numericV _ weight dscale digits =>
      decide (digits.length < 2 ^ 16) && decide (-(2 ^ 15) ≤ weight) &&
        decide (weight < 2 ^ 15) && decide (dscale < 2 ^ 16) &&
        digits.all (fun d => decide (d < 10000))
  | .float4V bits => decide (bits < 2 ^ 32)
  | .float8V bits => decide (bits < 2 ^ 64)
  | .textV s => decide (s.data.length < 2 ^ 32)
  | .dateV d => decide (-(2 ^ 31) ≤ d) && decide (d < 2 ^ 31)
  | .timeV t => decide (-(2 ^ 63) ≤ t) && decide (t < 2 ^ 63)
  | .timestampV t => decide (-(2 ^ 63) ≤ t) && decide (t < 2 ^ 63)
  | .timestamptzV inst off =>
      decide (-(2 ^ 63) ≤ inst) && decide (inst < 2 ^ 63) &&
        decide (-86400 ≤ off) && decide (off ≤ 86400)
  | .intervalV months days micros =>
      decide (-(2 ^ 31) ≤ months) && decide (months < 2 ^ 31) &&
        decide (-(2 ^ 31) ≤ days) && decide (days < 2 ^ 31) &&
        decide (-(2 ^ 63) ≤ micros) && decide (micros < 2 ^ 63)
  | .uuidV n => decide (n < 2 ^ 128)
  | .uuidStrV _ => false
  | .inetV isV6 addr => cond isV6 (decide (addr < 2 ^ 128)) (decide (addr < 2 ^ 32))
  | .jsonV j => wfJson j
  | .pointV x y => decide (x < 2 ^ 64) && decide (y < 2 ^ 64)
  | .lineV a b c => decide (a < 2 ^ 64) && decide (b < 2 ^ 64) && decide (c < 2 ^ 64)
  | .lsegV x1 y1 x2 y2 =>
      decide (x1 < 2 ^ 64) && decide (y1 < 2 ^ 64) &&
        decide (x2 < 2 ^ 64) && decide (y2 < 2 ^ 64)
  | .boxV x1 y1 x2 y2 =>
      decide (x1 < 2 ^ 64) && decide (y1 < 2 ^ 64) &&
        decide (x2 < 2 ^ 64) && decide (y2 < 2 ^ 64)
  | .pathV _ pts =>
      decide (pts.length < 2 ^ 32) &&
        pts.all (fun p => decide (p.1 < 2 ^ 64) && decide (p.2 < 2 ^ 64))
  | .polygonV pts =>
      decide (pts.length < 2 ^ 32) &&
        pts.all (fun p => decide (p.1 < 2 ^ 64) && decide (p.2 < 2 ^ 64))
  | .circleV x y r => decide (x < 2 ^ 64) && decide (y < 2 ^ 64) && decide (r < 2 ^ 64)
  | .enumV label => decide (label.data.length < 2 ^ 32)

/-- One lowercase hexadecimal digit character. -/
def hexDigitChar (n : Nat) : Char :=
  if n < 10 then Char.ofNat (48 + n) else Char.ofNat (87 + n)

/-- The canonical 8-4-4-4-12 lowercase string form of a 128-bit UUID. -/
def uuidToString (n : Nat) : String :=
  let nibbles := (List.range 32).map (fun k => hexDigitChar ((n / 16 ^ (31 - k)) % 16))
  let hyphen := Char.ofNat 45
  ⟨nibbles.take 8 ++ [hyphen] ++ ((nibbles.drop 8).take 4) ++ [hyphen] ++
    ((nibbles.drop 12).take 4) ++ [hyphen] ++ ((nibbles.drop 16).take 4) ++ [hyphen] ++
    nibbles.drop 20⟩

/-- Read one geometric point from the front of a buffer. -/
def decPoint (bs : Bytes) : Option ((Nat × Nat) × Bytes) :=
  match readBytes 8 bs with
  | some (xb, r1) =>
    match readBytes 8 r1 with
    | some (yb, r2) => some ((bytesToNatBE xb, bytesToNatBE yb), r2)
    | none => none
  | none => none

/-- Read one 2-byte unsigned integer from the front of a buffer. -/
def decU16 (bs : Bytes) : Option (Nat × Bytes) :=
  match readBytes 2 bs with
  | some (c, r) => some (bytesToNatBE c, r)
  | none => none

/-- Modelled from the spec: the decoding of one column payload of the
given wire type into a host value (§4.1 "Decoding contract": scalars
decode to their obvious host equivalents, UUID decodes to its canonical
string form, TIMESTAMPTZ preserves the instant with the offset
normalized to UTC, enums decode to their string label). -/
def decodeScalar (t : ScalarType) (bs : Bytes) : Option Scalar :=
  match t with
  | .boolT =>
    match bs with
    | [b] => some (.boolV (b == 1))
    | _ => none
  | .byteaT => some (.byteaV bs)
  | .int2T => if bs.length = 2 then some (.int2V (decIntBE bs)) else none
  | .int4T => if bs.length = 4 then some (.int4V (decIntBE bs)) else none
  | .int8T => if bs.length = 8 then some (.int8V (decIntBE bs)) else none
  | .numericT =>
    match readBytes 2 bs with
    | some (ndb, r1) =>
      match readBytes 2 r1 with
      | some (wb, r2) =>
        match readBytes 2 r2 with
        | some (sb, r3) =>
          match readBytes 2 r3 with
          | some (db, r4) =>
            match readCount decU16 (bytesToNatBE ndb) r4 with
            | some (digits, []) =>
                some (.numericV (bytesToNatBE sb == 16384) (decIntBE wb)
                  (bytesToNatBE db) digits)
            | _ => none
          | none => none
        | none => none
      | none => none
    | none => none
  | .float4T => if bs.length = 4 then some (.float4V (bytesToNatBE bs)) else none
  | .float8T => if bs.length = 8 then some (.float8V (bytesToNatBE bs)) else none
  | .textT => some (.textV (strOfBytes bs))
  | .dateT => if bs.length = 4 then some (.dateV (decIntBE bs)) else none
  | .timeT => if bs.length = 8 then some (.timeV (decIntBE bs)) else none
  | .timestampT => if bs.length = 8 then some (.timestampV (decIntBE bs)) else none
  | .timestamptzT => if bs.length = 8 then some (.timestamptzV (decIntBE bs) 0) else none
  | .intervalT =>
    match readBytes 8 bs with
    | some (ub, r1) =>
      match readBytes 4 r1 with
      | some (db, r2) =>
        match readBytes 4 r2 with
        | some (mb, []) => some (.intervalV (decIntBE mb) (decIntBE db) (decIntBE ub))
        | _ => none
      | none => none
    | none => none
  | .uuidT => if bs.length = 16 then some (.uuidStrV (uuidToString (bytesToNatBE bs))) else none
  | .inetT =>
    match bs with
    | 2 :: 32 :: 0 :: 4 :: r => if r.length = 4 then some (.inetV false (bytesToNatBE r)) else none
    | 3 :: 128 :: 0 :: 16 :: r =>
        if r.length = 16 then some (.inetV true (bytesToNatBE r)) else none
    | _ => none
  | .jsonT =>
    match decodeJsonWhole bs with
    | some j => some (.jsonV j)
    | none => none
  | .pointT =>
    match decPoint bs with
    | some ((x, y), []) => some (.pointV x y)
    | _ => none
  | .lineT =>
    match readBytes 8 bs with
    | some (ab, r1) =>
      match readBytes 8 r1 with
      | some (bb, r2) =>
        match readBytes 8 r2 with
        | some (cb, []) =>
            some (.lineV (bytesToNatBE ab) (bytesToNatBE bb) (bytesToNatBE cb))
        | _ => none
      | none => none
    | none => none
  | .lsegT =>
    match decPoint bs with
    | some ((x1, y1), r1) =>
      match decPoint r1 with
      | some ((x2, y2), []) => some (.lsegV x1 y1 x2 y2)
      | _ => none
    | none => none
  | .boxT =>
    match decPoint bs with
    | some ((x1, y1), r1) =>
      match decPoint r1 with
      | some ((x2, y2), []) => some (.boxV x1 y1 x2 y2)
      | _ => none
    | none => none
  | .pathT =>
    match bs with
    | c :: r =>
      match readBytes 4 r with
      | some (cb, r1) =>
        match readCount decPoint (bytesToNatBE cb) r1 with
        | some (pts, []) => some (.pathV (c == 1) pts)
        | _ => none
      | none => none
    | [] => none
  | .polygonT =>
    match readBytes 4 bs with
    | some (cb, r1) =>
      match readCount decPoint (bytesToNatBE cb) r1 with
      | some (pts, []) => some (.polygonV pts)
      | _ => none
    | none => none
  | .circleT =>
    match readBytes 8 bs with
    | some (xb, r1) =>
      match readBytes 8 r1 with
      | some (yb, r2) =>
        match readBytes 8 r2 with
        | some (rb, []) =>
            some (.circleV (bytesToNatBE xb) (bytesToNatBE yb) (bytesToNatBE rb))
        | _ => none
      | none => none
    | none => none
  | .enumT => some (.textV (strOfBytes bs))

/-- The documented decode-side normalizations: UUID to its canonical
string form, TIMESTAMPTZ to the same instant with the offset normalized
to UTC, enums to their string label; every other value round-trips
identically. -/
def normalizeScalar : Scalar → Scalar
  | .uuidV n => .uuidStrV (uuidToString n)
  | .timestamptzV inst _ => .timestamptzV inst 0
  | .enumV label => .textV label
  | s => s

theorem decIntBE_encIntBE_of_bounds (w : Nat) (b i : Int)
    (hb : 2 * b = 2 ^ (8 * w)) (h1 : -b ≤ i) (h2 : i < b) :
    decIntBE (encIntBE w i) = i := by
  apply decIntBE_encIntBE <;> omega

theorem readBytes_natToBytesBE (w n : Nat) (r : Bytes) :
    readBytes w (natToBytesBE w n ++ r) = some (natToBytesBE w n, r) := by
  have h := readBytes_append (natToBytesBE w n) r
  rwa [length_natToBytesBE] at h

theorem readBytes_encIntBE (w : Nat) (i : Int) (r : Bytes) :
    readBytes w (encIntBE w i ++ r) = some (encIntBE w i, r) := by
  have h := readBytes_append (encIntBE w i) r
  rwa [length_encIntBE] at h

theorem bytesToNat_natToBytes2 (n : Nat) (h : n < 2 ^ 16) :
    bytesToNatBE (natToBytesBE 2 n) = n :=
  bytesToNatBE_natToBytesBE_of_lt (by norm_num at h ⊢; exact h)

theorem bytesToNat_natToBytes4 (n : Nat) (h : n < 2 ^ 32) :
    bytesToNatBE (natToBytesBE 4 n) = n :=
  bytesToNatBE_natToBytesBE_of_lt (by norm_num at h ⊢; exact h)

theorem bytesToNat_natToBytes8 (n : Nat) (h : n < 2 ^ 64) :
    bytesToNatBE (natToBytesBE 8 n) = n :=
  bytesToNatBE_natToBytesBE_of_lt (by norm_num at h ⊢; exact h)

theorem bytesToNat_natToBytes16 (n : Nat) (h : n < 2 ^ 128) :
    bytesToNatBE (natToBytesBE 16 n) = n :=
  bytesToNatBE_natToBytesBE_of_lt (by norm_num at h ⊢; exact h)

theorem decPoint_encPoint (p : Nat × Nat) (hx : p.1 < 2 ^ 64) (hy : p.2 < 2 ^ 64) (r : Bytes) :
    decPoint (encPoint p ++ r) = some (p, r) := by
  obtain ⟨x, y⟩ := p
  unfold decPoint encPoint
  simp [List.append_assoc, readBytes_natToBytesBE,
    bytesToNat_natToBytes8 x hx, bytesToNat_natToBytes8 y hy]

theorem decU16_natToBytesBE (d : Nat) (hd : d < 2 ^ 16) (r : Bytes) :
    decU16 (natToBytesBE 2 d ++ r) = some (d, r) := by
  unfold decU16
  simp [readBytes_natToBytesBE, bytesToNat_natToBytes2 d hd]

theorem decodeScalar_encodeScalar (s : Scalar) (h : wfScalar s = true) :
    decodeScalar s.typeOf (encodeScalar s) = some (normalizeScalar s) := by
  cases s with
  | boolV b => cases b <;> simp [decodeScalar, encodeScalar, Scalar.typeOf, normalizeScalar]
  | byteaV bs => simp [decodeScalar, encodeScalar, Scalar.typeOf, normalizeScalar]
  | int2V i =>
      simp only [wfScalar, Bool.and_eq_true, decide_eq_true_eq] at h
      have hd : decIntBE (encIntBE 2 i) = i :=
        decIntBE_encIntBE_of_bounds 2 (2 ^ 15) i (by norm_num) h.1 h.2
      simp [decodeScalar, encodeScalar, Scalar.typeOf, normalizeScalar, length_encIntBE, hd]
  | int4V i =>
      simp only [wfScalar, Bool.and_eq_true, decide_eq_true_eq] at h
      have hd : decIntBE (encIntBE 4 i) = i :=
        decIntBE_encIntBE_of_bounds 4 (2 ^ 31) i (by norm_num) h.1 h.2
      simp [decodeScalar, encodeScalar, Scalar.typeOf, normalizeScalar, length_encIntBE, hd]
  | int8V i =>
      simp only [wfScalar, Bool.and_eq_true, decide_eq_true_eq] at h
      have hd : decIntBE (encIntBE 8 i) = i :=
        decIntBE_encIntBE_of_bounds 8 (2 ^ 63) i (by norm_num) h.1 h.2
      simp [decodeScalar, encodeScalar, Scalar.typeOf, normalizeScalar, length_encIntBE, hd]
  | numericV neg weight dscale digits =>
      simp only [wfScalar, Bool.and_eq_true, decide_eq_true_eq, List.all_eq_true] at h
      obtain ⟨⟨⟨⟨hnd, hw1⟩, hw2⟩, hds⟩, hdig⟩ := h
      have hwdec : decIntBE (encIntBE 2 weight) = weight :=
        decIntBE_encIntBE_of_bounds 2 (2 ^ 15) weight (by norm_num) hw1 hw2
      have hcnt : bytesToNatBE (natToBytesBE 2 digits.length) = digits.length :=
        bytesToNat_natToBytes2 _ hnd
      have hsign : bytesToNatBE (natToBytesBE 2 (cond neg 16384 0)) = cond neg 16384 0 :=
        bytesToNat_natToBytes2 _ (by cases neg <;> norm_num)
      have hdsc : bytesToNatBE (natToBytesBE 2 dscale) = dscale :=
        bytesToNat_natToBytes2 _ hds
      have hitem : ∀ d ∈ digits, ∀ rest, decU16 (natToBytesBE 2 d ++ rest) = some (d, rest) := by
        intro d hd rest
        exact decU16_natToBytesBE d (by have := hdig d hd; simp at this; omega) rest
      have hcount := readCount_append decU16 (natToBytesBE 2) digits [] hitem
      rw [List.append_nil] at hcount
      have hsgnb : ((cond neg 16384 0 : Nat) == 16384) = neg := by cases neg <;> simp
      simp [decodeScalar, encodeScalar, Scalar.typeOf, normalizeScalar, List.append_assoc,
        readBytes_natToBytesBE, readBytes_encIntBE, hcnt, hcount, hwdec, hsign, hdsc, hsgnb]
  | float4V bits =>
      simp only [wfScalar, decide_eq_true_eq] at h
      simp [decodeScalar, encodeScalar, Scalar.typeOf, normalizeScalar, length_natToBytesBE,
        bytesToNat_natToBytes4 bits h]
  | float8V bits =>
      simp only [wfScalar, decide_eq_true_eq] at h
      simp [decodeScalar, encodeScalar, Scalar.typeOf, normalizeScalar, length_natToBytesBE,
        bytesToNat_natToBytes8 bits h]
  | textV s =>
      simp [decodeScalar, encodeScalar, Scalar.typeOf, normalizeScalar, strOfBytes_strToBytes]
  | dateV d =>
      simp only [wfScalar, Bool.and_eq_true, decide_eq_true_eq] at h
      have hd : decIntBE (encIntBE 4 d) = d :=
        decIntBE_encIntBE_of_bounds 4 (2 ^ 31) d (by norm_num) h.1 h.2
      simp [decodeScalar, encodeScalar, Scalar.typeOf, normalizeScalar, length_encIntBE, hd]
  | timeV t =>
      simp only [wfScalar, Bool.and_eq_true, decide_eq_true_eq] at h
      have hd : decIntBE (encIntBE 8 t) = t :=
        decIntBE_encIntBE_of_bounds 8 (2 ^ 63) t (by norm_num) h.1 h.2
      simp [decodeScalar, encodeScalar, Scalar.typeOf, normalizeScalar, length_encIntBE, hd]
  | timestampV t =>
      simp only [wfScalar, Bool.and_eq_true, decide_eq_true_eq] at h
      have hd : decIntBE (encIntBE 8 t) = t :=
        decIntBE_encIntBE_of_bounds 8 (2 ^ 63) t (by norm_num) h.1 h.2
      simp [decodeScalar, encodeScalar, Scalar.typeOf, normalizeScalar, length_encIntBE, hd]
  | timestamptzV inst off =>
      simp only [wfScalar, Bool.and_eq_true, decide_eq_true_eq] at h
      have hd : decIntBE (encIntBE 8 inst) = inst :=
        decIntBE_encIntBE_of_bounds 8 (2 ^ 63) inst (by norm_num) h.1.1.1 h.1.1.2
      simp [decodeScalar, encodeScalar, Scalar.typeOf, normalizeScalar, length_encIntBE, hd]
  | intervalV months days micros =>
      simp only [wfScalar, Bool.and_eq_true, decide_eq_true_eq] at h
      obtain ⟨⟨⟨⟨⟨hm1, hm2⟩, hd1⟩, hd2⟩, hu1⟩, hu2⟩ := h
      have hmdec : decIntBE (encIntBE 4 months) = months :=
        decIntBE_encIntBE_of_bounds 4 (2 ^ 31) months (by norm_num) hm1 hm2
      have hddec : decIntBE (encIntBE 4 days) = days :=
        decIntBE_encIntBE_of_bounds 4 (2 ^ 31) days (by norm_num) hd1 hd2
      have hudec : decIntBE (encIntBE 8 micros) = micros :=
        decIntBE_encIntBE_of_bounds 8 (2 ^ 63) micros (by norm_num) hu1 hu2
      have hbuf : encIntBE 8 micros ++ encIntBE 4 days ++ encIntBE 4 months =
          encIntBE 8 micros ++ (encIntBE 4 days ++ (encIntBE 4 months ++ [])) := by
        simp
      simp only [decodeScalar, encodeScalar, Scalar.typeOf, normalizeScalar, hbuf,
        readBytes_encIntBE]
      simp [hmdec, hddec, hudec]
  | uuidV n =>
      simp only [wfScalar, decide_eq_true_eq] at h
      simp [decodeScalar, encodeScalar, Scalar.typeOf, normalizeScalar, length_natToBytesBE,
        bytesToNat_natToBytes16 n h]
  | uuidStrV s => simp [wfScalar] at h
  | inetV isV6 addr =>
      cases isV6 with
      | false =>
          simp only [wfScalar, cond_false, decide_eq_true_eq] at h
          simp [decodeScalar, encodeScalar, Scalar.typeOf, normalizeScalar,
            length_natToBytesBE, bytesToNat_natToBytes4 addr h]
      | true =>
          simp only [wfScalar, cond_true, decide_eq_true_eq] at h
          simp [decodeScalar, encodeScalar, Scalar.typeOf, normalizeScalar,
            length_natToBytesBE, bytesToNat_natToBytes16 addr h]
  | jsonV j =>
      simp only [wfScalar] at h
      simp [decodeScalar, encodeScalar, Scalar.typeOf, normalizeScalar,
        decodeJsonWhole_encode j h]
  | pointV x y =>
      simp only [wfScalar, Bool.and_eq_true, decide_eq_true_eq] at h
      have hp : decPoint (natToBytesBE 8 x ++ natToBytesBE 8 y) = some ((x, y), []) := by
        simpa [encPoint] using decPoint_encPoint (x, y) h.1 h.2 []
      simp [decodeScalar, encodeScalar, Scalar.typeOf, normalizeScalar, hp]
  | lineV a b c =>
      simp only [wfScalar, Bool.and_eq_true, decide_eq_true_eq] at h
      obtain ⟨⟨ha, hb⟩, hc⟩ := h
      have hbuf : natToBytesBE 8 a ++ natToBytesBE 8 b ++ natToBytesBE 8 c =
          natToBytesBE 8 a ++ (natToBytesBE 8 b ++ (natToBytesBE 8 c ++ [])) := by
        simp
      simp only [decodeScalar, encodeScalar, Scalar.typeOf, normalizeScalar, hbuf,
        readBytes_natToBytesBE]
      simp [bytesToNat_natToBytes8 a ha, bytesToNat_natToBytes8 b hb, bytesToNat_natToBytes8 c hc]
  | lsegV x1 y1 x2 y2 =>
      simp only [wfScalar, Bool.and_eq_true, decide_eq_true_eq] at h
      obtain ⟨⟨⟨h1, h2⟩, h3⟩, h4⟩ := h
      have hp1 : decPoint (natToBytesBE 8 x1 ++ (natToBytesBE 8 y1 ++
          (natToBytesBE 8 x2 ++ natToBytesBE 8 y2))) =
          some ((x1, y1), natToBytesBE 8 x2 ++ natToBytesBE 8 y2) := by
        simpa [encPoint, List.append_assoc] using
          decPoint_encPoint (x1, y1) h1 h2 (natToBytesBE 8 x2 ++ natToBytesBE 8 y2)
      have hp2 : decPoint (natToBytesBE 8 x2 ++ natToBytesBE 8 y2) = some ((x2, y2), []) := by
        simpa [encPoint] using decPoint_encPoint (x2, y2) h3 h4 []
      simp [decodeScalar, encodeScalar, Scalar.typeOf, normalizeScalar, List.append_assoc,
        hp1, hp2]
  | boxV x1 y1 x2 y2 =>
      simp only [wfScalar, Bool.and_eq_true, decide_eq_true_eq] at h
      obtain ⟨⟨⟨h1, h2⟩, h3⟩, h4⟩ := h
      have hp1 : decPoint (natToBytesBE 8 x1 ++ (natToBytesBE 8 y1 ++
          (natToBytesBE 8 x2 ++ natToBytesBE 8 y2))) =
          some ((x1, y1), natToBytesBE 8 x2 ++ natToBytesBE 8 y2) := by
        simpa [encPoint, List.append_assoc] using
          decPoint_encPoint (x1, y1) h1 h2 (natToBytesBE 8 x2 ++ natToBytesBE 8 y2)
      have hp2 : decPoint (natToBytesBE 8 x2 ++ natToBytesBE 8 y2) = some ((x2, y2), []) := by
        simpa [encPoint] using decPoint_encPoint (x2, y2) h3 h4 []
      simp [decodeScalar, encodeScalar, Scalar.typeOf, normalizeScalar, List.append_assoc,
        hp1, hp2]
  | pathV closed pts =>
      simp only [wfScalar, Bool.and_eq_true, decide_eq_true_eq, List.all_eq_true] at h
      obtain ⟨hlen, hpts⟩ := h
      have hitem : ∀ p ∈ pts, ∀ rest, decPoint (encPoint p ++ rest) = some (p, rest) := by
        intro p hp rest
        have := hpts p hp
        simp only [Bool.and_eq_true, decide_eq_true_eq] at this
        exact decPoint_encPoint p this.1 this.2 rest
      have hcount := readCount_append decPoint encPoint pts [] hitem
      rw [List.append_nil] at hcount
      have hcnt : bytesToNatBE (natToBytesBE 4 pts.length) = pts.length :=
        bytesToNat_natToBytes4 _ hlen
      cases closed <;>
        simp [decodeScalar, encodeScalar, Scalar.typeOf, normalizeScalar, List.append_assoc,
          readBytes_natToBytesBE, hcnt, hcount]
  | polygonV pts =>
      simp only [wfScalar, Bool.and_eq_true, decide_eq_true_eq, List.all_eq_true] at h
      obtain ⟨hlen, hpts⟩ := h
      have hitem : ∀ p ∈ pts, ∀ rest, decPoint (encPoint p ++ rest) = some (p, rest) := by
        intro p hp rest
        have := hpts p hp
        simp only [Bool.and_eq_true, decide_eq_true_eq] at this
        exact decPoint_encPoint p this.1 this.2 rest
      have hcount := readCount_append decPoint encPoint pts [] hitem
      rw [List.append_nil] at hcount
      have hcnt : bytesToNatBE (natToBytesBE 4 pts.length) = pts.length :=
        bytesToNat_natToBytes4 _ hlen
      simp [decodeScalar, encodeScalar, Scalar.typeOf, normalizeScalar, List.append_assoc,
        readBytes_natToBytesBE, hcnt, hcount]
  | circleV x y r =>
      simp only [wfScalar, Bool.and_eq_true, decide_eq_true_eq] at h
      obtain ⟨⟨hx, hy⟩, hr⟩ := h
      have hbuf : natToBytesBE 8 x ++ natToBytesBE 8 y ++ natToBytesBE 8 r =
          natToBytesBE 8 x ++ (natToBytesBE 8 y ++ (natToBytesBE 8 r ++ [])) := by
        simp
      simp only [decodeScalar, encodeScalar, Scalar.typeOf, normalizeScalar, hbuf,
        readBytes_natToBytesBE]
      simp [bytesToNat_natToBytes8 x hx, bytesToNat_natToBytes8 y hy, bytesToNat_natToBytes8 r hr]
  | enumV label =>
      simp [decodeScalar, encodeScalar, Scalar.typeOf, normalizeScalar, strOfBytes_strToBytes]

/-- Modelled from the spec (§6 "Error codes"): the error kinds of the
driver that the modelled operations raise.  `pyToRustValueMappingError`
is the value-encode error (spec name `ValueEncodeError`, Python name
`PyToRustValueMappingError`); `rustToPyValueMappingError` is the
value-decode error. -/
inductive PsqlError where
  | interfaceError
  | connectionExecuteError
  | transactionExecuteError
  | transactionClosedError
  | transactionBeginError
  | transactionSavepointError
  | pyToRustValueMappingError
  | rustToPyValueMappingError
deriving DecidableEq, Repr

/-- Modelled from the spec: a (possibly multi-dimensional) array
parameter as the host passes it — each level a list whose members are
either scalars or deeper lists. -/
inductive Arr where
  | elem (s : Scalar)
  | sub (items : List Arr)

/-- The dimension vector read off the first-element path of an array
member, as the encoder computes it before checking the remaining
members against it. -/
def subDims : Arr → List Nat
  | .elem _ => []
  | .sub items =>
      items.length ::
        (match items with
         | [] => []
         | a :: _ => subDims a)

/-- The first-element dimension vector below the outermost list. -/
def subHeadDims (items : List Arr) : List Nat :=
  match items with
  | [] => []
  | a :: _ => subDims a

/-- The full dimension vector of the outermost list. -/
def topShape (items : List Arr) : List Nat :=
  items.length :: subHeadDims items

mutual

/-- Does an array member have exactly the given dimension vector? -/
def matchesShape : List Nat → Arr → Bool
  | [], .elem _ => true
  | d :: ds, .sub items => (items.length == d) && matchesShapeList ds items
  | _, _ => false

/-- Do all members of a list have the given dimension vector? -/
def matchesShapeList : List Nat → List Arr → Bool
  | _, [] => true
  | ds, a :: rest => matchesShape ds a && matchesShapeList ds rest

end

mutual

/-- The exact shape of one array member: `none` when two sub-lists at
the same depth inside it differ, otherwise its dimension vector. -/
def shapeOf : Arr → Option (List Nat)
  | .elem _ => some []
  | .sub items => shapeOfList items

/-- The common shape of a list of members, length-prefixed; `none` when
any two members disagree. -/
def shapeOfList : List Arr → Option (List Nat)
  | [] => some [0]
  | a :: rest =>
    match shapeOf a with
    | some s => if sameShapeAll s rest then some ((rest.length + 1) :: s) else none
    | none => none

/-- Do all listed members have exactly the given shape? -/
def sameShapeAll (s : List Nat) : List Arr → Bool
  | [] => true
  | a :: rest => (shapeOf a == some s) && sameShapeAll s rest

end

mutual

/-- Row-major flattening of one array member. -/
def flattenOne : Arr → List Scalar
  | .elem s => [s]
  | .sub items => flattenList items

/-- Row-major flattening of a list of members. -/
def flattenList : List Arr → List Scalar
  | [] => []
  | a :: rest => flattenOne a ++ flattenList rest

end

/-- The number of scalar cells a dimension vector spans. -/
def prodDims : List Nat → Nat
  | [] => 1
  | d :: ds => d * prodDims ds

mutual

/-- Rebuild one member of the given shape from a flat scalar stream. -/
def unflattenOne : List Nat → List Scalar → Option (Arr × List Scalar)
  | [], xs =>
    match xs with
    | x :: rest => some (.elem x, rest)
    | [] => none
  | d :: ds, xs =>
    match unflattenMany d ds xs with
    | some (l, rest) => some (.sub l, rest)
    | none => none
termination_by ds _ => (ds.length, 0)

/-- Rebuild `n` members of the given shape from a flat scalar stream. -/
def unflattenMany : Nat → List Nat → List Scalar → Option (List Arr × List Scalar)
  | 0, _, xs => some ([], xs)
  | n + 1, ds, xs =>
    match unflattenOne ds xs with
    | some (a, r) =>
      match unflattenMany n ds r with
      | some (l, r') => some (a :: l, r')
      | none => none
    | none => none
termination_by n ds _ => (ds.length, n + 1)

end

mutual

/-- Decode-side normalization applied cell-wise to an array member. -/
def normalizeArr : Arr → Arr
  | .elem s => .elem (normalizeScalar s)
  | .sub items => .sub (normalizeArrList items)

/-- Decode-side normalization applied cell-wise to a member list. -/
def normalizeArrList : List Arr → List Arr
  | [] => []
  | a :: rest => normalizeArr a :: normalizeArrList rest

end

mutual

/-- Well-formedness of one array member against the element type: every
cell is a well-formed scalar of that type whose payload fits a 4-byte
length header. -/
def wfArr (t : ScalarType) : Arr → Bool
  | .elem s =>
      wfScalar s && (s.typeOf == t) && decide ((encodeScalar s).length < 2 ^ 32)
  | .sub items => wfArrList t items

/-- Well-formedness of a member list against the element type. -/
def wfArrList (t : ScalarType) : List Arr → Bool
  | [] => true
  | a :: rest => wfArr t a && wfArrList t rest

end

/-- A numeric stand-in for the element OID written into the array
header. -/
def scalarTypeCode : ScalarType → Nat
  | .boolT => 16
  | .byteaT => 17
  | .int2T => 21
  | .int4T => 23
  | .int8T => 20
  | .numericT => 1700
  | .float4T => 700
  | .float8T => 701
  | .textT => 25
  | .dateT => 1082
  | .timeT => 1083
  | .timestampT => 1114
  | .timestamptzT => 1184
  | .intervalT => 1186
  | .uuidT => 2950
  | .inetT => 869
  | .jsonT => 114
  | .pointT => 600
  | .lineT => 628
  | .lsegT => 601
  | .boxT => 603
  | .pathT => 602
  | .polygonT => 604
  | .circleT => 718
  | .enumT => 0

/-- Modelled from the spec: the array parameter encoder.  "Multi-
dimensional arrays: all sub-lists at a given depth must have identical
length; otherwise fail with a value-mapping error."  On a shape-
consistent array it emits the PostgreSQL array header (ndims, flags,
element OID, per-dimension length and lower bound) followed by the
length-prefixed cell payloads in row-major order. -/
def encodeArray (t : ScalarType) (items : List Arr) : Except PsqlError Bytes :=
  if matchesShapeList (subHeadDims items) items then
    .ok (natToBytesBE 4 (topShape items).length ++ natToBytesBE 4 0 ++
      natToBytesBE 4 (scalarTypeCode t) ++
      joinMap (fun d => natToBytesBE 4 d ++ natToBytesBE 4 1) (topShape items) ++
      joinMap (fun s => lenPrefixed (encodeScalar s)) (flattenList items))
  else .error .pyToRustValueMappingError

/-- Read one dimension entry (length and lower bound) of an array
header. -/
def decDim (bs : Bytes) : Option (Nat × Bytes) :=
  match readBytes 4 bs with
  | some (db, r1) =>
    match readBytes 4 r1 with
    | some (_, r2) => some (bytesToNatBE db, r2)
    | none => none
  | none => none

/-- Read one length-prefixed cell payload and decode it at the given
element type. -/
def decCell (t : ScalarType) (bs : Bytes) : Option (Scalar × Bytes) :=
  match readLenPrefixed bs with
  | some (p, r) =>
    match decodeScalar t p with
    | some s => some (s, r)
    | none => none
  | none => none

/-- Modelled from the spec: the array column decoder — reads the array
header, the dimension vector, then the row-major cells, and rebuilds
the nested lists matching the declared dimensions. -/
def decodeArray (t : ScalarType) (bs : Bytes) : Option (List Arr) :=
  match readBytes 4 bs with
  | some (nb, r1) =>
    match readBytes 4 r1 with
    | some (_, r2) =>
      match readBytes 4 r2 with
      | some (_, r3) =>
        match readCount decDim (bytesToNatBE nb) r3 with
        | some ([], _) => none
        | some (n :: ds, r4) =>
          match readCount (decCell t) (n * prodDims ds) r4 with
          | some (xs, []) =>
            match unflattenMany n ds xs with
            | some (l, []) => some l
            | _ => none
          | _ => none
        | none => none
      | none => none
    | none => none
  | none => none

/-- A parameter type: a scalar OID or the array OID over a scalar
element type (PostgreSQL arrays are never nested as array-of-array;
extra depth lives in the dimension vector). -/
inductive PgType where
  | scalarOf (t : ScalarType)
  | arrayOf (t : ScalarType)
deriving DecidableEq, Repr

/-- A host parameter value: a scalar, or an array with its element
type. -/
inductive Value where
  | scalar (s : Scalar)
  | array (t : ScalarType) (items : List Arr)

/-- The wire type a host value is bound to. -/
def Value.typeOf : Value → PgType
  | .scalar s => .scalarOf s.typeOf
  | .array t _ => .arrayOf t

/-- Modelled from the spec: parameter encoding dispatching on the host
value, failing with the value-encode error exactly where the codec
does. -/
def encodeValue : Value → Except PsqlError Bytes
  | .scalar s => .ok (encodeScalar s)
  | .array t items => encodeArray t items

/-- Modelled from the spec: column decoding dispatching on the wire
type. -/
def decodeValue : PgType → Bytes → Option Value
  | .scalarOf t, bs =>
    match decodeScalar t bs with
    | some s => some (.scalar s)
    | none => none
  | .arrayOf t, bs =>
    match decodeArray t bs with
    | some items => some (.array t items)
    | none => none

/-- Well-formedness of a host value: scalar ranges, and for arrays a
consistent shape with header-sized dimensions. -/
def wfValue : Value → Bool
  | .scalar s => wfScalar s
  | .array t items =>
      wfArrList t items && matchesShapeList (subHeadDims items) items &&
        decide ((topShape items).length < 2 ^ 32) &&
        (topShape items).all (fun d => decide (d < 2 ^ 32))

/-- The documented normalizations applied value-wise. -/
def normalizeValue : Value → Value
  | .scalar s => .scalar (normalizeScalar s)
  | .array t items => .array t (normalizeArrList items)

mutual

theorem unflattenOne_flatten (a : Arr) (ds : List Nat) (rest : List Scalar)
    (h : matchesShape ds a = true) :
    unflattenOne ds (flattenOne a ++ rest) = some (a, rest) := by
  cases a with
  | elem s =>
      cases ds with
      | nil =>
          rw [show flattenOne (Arr.elem s) = [s] from rfl, unflattenOne.eq_def]
          simp
      | cons d ds => simp [matchesShape] at h
  | sub items =>
      cases ds with
      | nil => simp [matchesShape] at h
      | cons d ds =>
          simp only [matchesShape, Bool.and_eq_true, beq_iff_eq] at h
          obtain ⟨hlen, hrest⟩ := h
          subst hlen
          have hm := unflattenMany_flatten items ds rest hrest
          rw [show flattenOne (Arr.sub items) = flattenList items from rfl,
            unflattenOne.eq_def]
          simp [hm]

theorem unflattenMany_flatten (l : List Arr) (ds : List Nat) (rest : List Scalar)
    (h : matchesShapeList ds l = true) :
    unflattenMany l.length ds (flattenList l ++ rest) = some (l, rest) := by
  cases l with
  | nil =>
      rw [show flattenList [] = [] from rfl, unflattenMany.eq_def]
      simp
  | cons a tl =>
      simp only [matchesShapeList, Bool.and_eq_true] at h
      have ha := unflattenOne_flatten a ds (flattenList tl ++ rest) h.1
      have htl := unflattenMany_flatten tl ds rest h.2
      rw [show flattenList (a :: tl) = flattenOne a ++ flattenList tl from rfl,
        List.append_assoc, show (a :: tl).length = tl.length + 1 from rfl,
        unflattenMany.eq_def]
      simp [ha, htl]

end

mutual

theorem length_flattenOne (a : Arr) (ds : List Nat) (h : matchesShape ds a = true) :
    (flattenOne a).length = prodDims ds := by
  cases a with
  | elem s =>
      cases ds with
      | nil => simp [flattenOne, prodDims]
      | cons d ds => simp [matchesShape] at h
  | sub items =>
      cases ds with
      | nil => simp [matchesShape] at h
      | cons d ds =>
          simp only [matchesShape, Bool.and_eq_true, beq_iff_eq] at h
          obtain ⟨hlen, hrest⟩ := h
          subst hlen
          have hl := length_flattenList items ds hrest
          simp [flattenOne, prodDims, hl]

theorem length_flattenList (l : List Arr) (ds : List Nat)
    (h : matchesShapeList ds l = true) :
    (flattenList l).length = l.length * prodDims ds := by
  cases l with
  | nil => simp [flattenList]
  | cons a tl =>
      simp only [matchesShapeList, Bool.and_eq_true] at h
      have h1 := length_flattenOne a ds h.1
      have h2 := length_flattenList tl ds h.2
      simp only [flattenList, List.length_append, List.length_cons, h1, h2]
      ring

end

theorem length_normalizeArrList (l : List Arr) :
    (normalizeArrList l).length = l.length := by
  induction l with
  | nil => simp [normalizeArrList]
  | cons a tl ih => simp [normalizeArrList, ih]

mutual

theorem matchesShape_normalizeArr (a : Arr) (ds : List Nat) :
    matchesShape ds (normalizeArr a) = matchesShape ds a := by
  cases a with
  | elem s => cases ds <;> simp [normalizeArr, matchesShape, normalizeScalar]
  | sub items =>
      cases ds with
      | nil => simp [normalizeArr, matchesShape]
      | cons d ds =>
          have h1 := matchesShapeList_normalizeArrList items ds
          simp [normalizeArr, matchesShape, h1, length_normalizeArrList]

theorem matchesShapeList_normalizeArrList (l : List Arr) (ds : List Nat) :
    matchesShapeList ds (normalizeArrList l) = matchesShapeList ds l := by
  cases l with
  | nil => simp [normalizeArrList, matchesShapeList]
  | cons a tl =>
      have h1 := matchesShape_normalizeArr a ds
      have h2 := matchesShapeList_normalizeArrList tl ds
      simp [normalizeArrList, matchesShapeList, h1, h2]

end

mutual

theorem flattenOne_normalizeArr (a : Arr) :
    flattenOne (normalizeArr a) = (flattenOne a).map normalizeScalar := by
  cases a with
  | elem s => simp [normalizeArr, flattenOne]
  | sub items =>
      have h := flattenList_normalizeArrList items
      simp [normalizeArr, flattenOne, h]

theorem flattenList_normalizeArrList (l : List Arr) :
    flattenList (normalizeArrList l) = (flattenList l).map normalizeScalar := by
  cases l with
  | nil => simp [normalizeArrList, flattenList]
  | cons a tl =>
      have h1 := flattenOne_normalizeArr a
      have h2 := flattenList_normalizeArrList tl
      simp [normalizeArrList, flattenList, h1, h2]

end

mutual

theorem wfArr_flatten (t : ScalarType) (a : Arr) (h : wfArr t a = true) :
    ∀ s ∈ flattenOne a,
      wfScalar s = true ∧ s.typeOf = t ∧ (encodeScalar s).length < 2 ^ 32 := by
  cases a with
  | elem s =>
      simp only [wfArr, Bool.and_eq_true, beq_iff_eq, decide_eq_true_eq] at h
      intro x hx
      simp only [flattenOne, List.mem_singleton] at hx
      subst hx
      exact ⟨h.1.1, h.1.2, h.2⟩
  | sub items =>
      simp only [wfArr] at h
      intro x hx
      simp only [flattenOne] at hx
      exact wfArrList_flatten t items h x hx

theorem wfArrList_flatten (t : ScalarType) (l : List Arr) (h : wfArrList t l = true) :
    ∀ s ∈ flattenList l,
      wfScalar s = true ∧ s.typeOf = t ∧ (encodeScalar s).length < 2 ^ 32 := by
  cases l with
  | nil => intro x hx; simp [flattenList] at hx
  | cons a tl =>
      simp only [wfArrList, Bool.and_eq_true] at h
      intro x hx
      simp only [flattenList, List.mem_append] at hx
      cases hx with
      | inl hx => exact wfArr_flatten t a h.1 x hx
      | inr hx => exact wfArrList_flatten t tl h.2 x hx

end

theorem decodeArray_encodeArray (t : ScalarType) (items : List Arr)
    (hwf : wfArrList t items = true)
    (hsh : matchesShapeList (subHeadDims items) items = true)
    (hndims : (topShape items).length < 2 ^ 32)
    (hdims : (topShape items).all (fun d => decide (d < 2 ^ 32)) = true) :
    encodeArray t items =
      .ok (natToBytesBE 4 (topShape items).length ++ natToBytesBE 4 0 ++
        natToBytesBE 4 (scalarTypeCode t) ++
        joinMap (fun d => natToBytesBE 4 d ++ natToBytesBE 4 1) (topShape items) ++
        joinMap (fun s => lenPrefixed (encodeScalar s)) (flattenList items)) ∧
    decodeArray t (natToBytesBE 4 (topShape items).length ++ natToBytesBE 4 0 ++
        natToBytesBE 4 (scalarTypeCode t) ++
        joinMap (fun d => natToBytesBE 4 d ++ natToBytesBE 4 1) (topShape items) ++
        joinMap (fun s => lenPrefixed (encodeScalar s)) (flattenList items)) =
      some (normalizeArrList items) := by
  constructor
  · unfold encodeArray
    rw [if_pos hsh]
  · have hdimItem : ∀ d ∈ topShape items, ∀ rest,
        decDim ((natToBytesBE 4 d ++ natToBytesBE 4 1) ++ rest) = some (d, rest) := by
      intro d hd rest
      have hd32 : d < 2 ^ 32 := by
        have := List.all_eq_true.mp hdims d hd
        simpa using this
      simp [decDim, List.append_assoc, readBytes_natToBytesBE, bytesToNat_natToBytes4 d hd32]
    have hdimsRead := readCount_append decDim
      (fun d => natToBytesBE 4 d ++ natToBytesBE 4 1) (topShape items)
      (joinMap (fun s => lenPrefixed (encodeScalar s)) (flattenList items)) hdimItem
    have hcellItem : ∀ s ∈ flattenList items, ∀ rest,
        decCell t (lenPrefixed (encodeScalar s) ++ rest) = some (normalizeScalar s, rest) := by
      intro s hs rest
      obtain ⟨hw, hty, hlen⟩ := wfArrList_flatten t items hwf s hs
      have hrd := readLenPrefixed_append (encodeScalar s) rest hlen
      have hds : decodeScalar t (encodeScalar s) = some (normalizeScalar s) := by
        rw [← hty]
        exact decodeScalar_encodeScalar s hw
      simp [decCell, hrd, hds]
    have hcells := readCount_append_map (decCell t)
      (fun s => lenPrefixed (encodeScalar s)) normalizeScalar (flattenList items) [] hcellItem
    rw [List.append_nil] at hcells
    have hu : unflattenMany items.length (subHeadDims items)
        ((flattenList items).map normalizeScalar) = some (normalizeArrList items, []) := by
      have h0 := unflattenMany_flatten (normalizeArrList items) (subHeadDims items) []
        (by rw [matchesShapeList_normalizeArrList]; exact hsh)
      rw [List.append_nil, length_normalizeArrList, flattenList_normalizeArrList] at h0
      exact h0
    have hcntA : bytesToNatBE (natToBytesBE 4 ((subHeadDims items).length + 1)) =
        (subHeadDims items).length + 1 := by
      apply bytesToNat_natToBytes4
      simpa [topShape] using hndims
    simp only [topShape, List.length_cons] at hdimsRead
    have hcnt2 : items.length * prodDims (subHeadDims items) = (flattenList items).length :=
      (length_flattenList items _ hsh).symm
    simp [decodeArray, topShape, List.append_assoc, readBytes_natToBytesBE,
      hcntA, hdimsRead, hcnt2, hcells, hu]

theorem subDims_of_shapeOf (a : Arr) (s : List Nat) (h : shapeOf a = some s) :
    subDims a = s := by
  cases a with
  | elem x =>
      simp only [shapeOf, Option.some.injEq] at h
      simp [subDims, ← h]
  | sub items =>
      cases items with
      | nil =>
          simp only [shapeOf, shapeOfList, Option.some.injEq] at h
          simp [subDims, ← h]
      | cons b rest =>
          simp only [shapeOf] at h
          cases hb : shapeOf b with
          | none => simp [shapeOfList, hb] at h
          | some s' =>
              cases hall : sameShapeAll s' rest with
              | false => simp [shapeOfList, hb, hall] at h
              | true =>
                  simp only [shapeOfList, hb, hall, if_true, Option.some.injEq] at h
                  have hrec := subDims_of_shapeOf b s' hb
                  simp [subDims, hrec, ← h]

mutual

theorem matchesShape_of_shapeOf (a : Arr) (s : List Nat) (h : shapeOf a = some s) :
    matchesShape s a = true := by
  cases a with
  | elem x =>
      simp only [shapeOf, Option.some.injEq] at h
      rw [← h]
      simp [matchesShape]
  | sub items =>
      cases items with
      | nil =>
          simp only [shapeOf, shapeOfList, Option.some.injEq] at h
          rw [← h]
          simp [matchesShape, matchesShapeList]
      | cons b rest =>
          simp only [shapeOf] at h
          cases hb : shapeOf b with
          | none => simp [shapeOfList, hb] at h
          | some s' =>
              cases hall : sameShapeAll s' rest with
              | false => simp [shapeOfList, hb, hall] at h
              | true =>
                  simp only [shapeOfList, hb, hall, if_true, Option.some.injEq] at h
                  have hsb := matchesShape_of_shapeOf b s' hb
                  have hsr := matchesShapeList_of_sameShapeAll rest s' hall
                  rw [← h]
                  simp [matchesShape, matchesShapeList, hsb, hsr]

theorem matchesShapeList_of_sameShapeAll (l : List Arr) (s : List Nat)
    (h : sameShapeAll s l = true) : matchesShapeList s l = true := by
  cases l with
  | nil => simp [matchesShapeList]
  | cons a tl =>
      simp only [sameShapeAll, Bool.and_eq_true, beq_iff_eq] at h
      have h1 := matchesShape_of_shapeOf a s h.1
      have h2 := matchesShapeList_of_sameShapeAll tl s h.2
      simp [matchesShapeList, h1, h2]

end

/-- The prefix of a dimension vector up to and including its first
zero; a zero-length dimension ends the reachable part of the shape. -/
def truncAtZero : List Nat → List Nat
  | [] => []
  | 0 :: _ => [0]
  | (d + 1) :: ds => (d + 1) :: truncAtZero ds

mutual

theorem shapeOf_of_matchesShape (a : Arr) (ds : List Nat) (h : matchesShape ds a = true) :
    shapeOf a = some (truncAtZero ds) := by
  cases a with
  | elem x =>
      cases ds with
      | nil => simp [shapeOf, truncAtZero]
      | cons d ds => simp [matchesShape] at h
  | sub items =>
      cases ds with
      | nil => simp [matchesShape] at h
      | cons d ds =>
          simp only [matchesShape, Bool.and_eq_true, beq_iff_eq] at h
          obtain ⟨hlen, hrest⟩ := h
          cases items with
          | nil =>
              have hd : d = 0 := by simpa using hlen.symm
              subst hd
              simp [shapeOf, shapeOfList, truncAtZero]
          | cons b rest =>
              have hd : d = rest.length + 1 := by simpa using hlen.symm
              subst hd
              simp only [matchesShapeList, Bool.and_eq_true] at hrest
              have hb := shapeOf_of_matchesShape b ds hrest.1
              have hall := sameShapeAll_of_matchesShapeList rest ds hrest.2
              simp [shapeOf, shapeOfList, hb, hall, truncAtZero]

theorem sameShapeAll_of_matchesShapeList (l : List Arr) (ds : List Nat)
    (h : matchesShapeList ds l = true) : sameShapeAll (truncAtZero ds) l = true := by
  cases l with
  | nil => simp [sameShapeAll]
  | cons a tl =>
      simp only [matchesShapeList, Bool.and_eq_true] at h
      have h1 := shapeOf_of_matchesShape a ds h.1
      have h2 := sameShapeAll_of_matchesShapeList tl ds h.2
      simp [sameShapeAll, h1, h2]

end

theorem encodeArray_ok_iff_shape (t : ScalarType) (items : List Arr) :
    ((shapeOfList items).isSome = true → ∃ bs, encodeArray t items = .ok bs) ∧
    ((shapeOfList items).isSome = false →
      encodeArray t items = .error .pyToRustValueMappingError) := by
  constructor
  · intro hsome
    rw [Option.isSome_iff_exists] at hsome
    obtain ⟨s, hs⟩ := hsome
    have hcheck : matchesShapeList (subHeadDims items) items = true := by
      cases items with
      | nil => simp [matchesShapeList]
      | cons a rest =>
          simp only [shapeOfList] at hs
          cases hb : shapeOf a with
          | none => simp [hb] at hs
          | some s' =>
              cases hall : sameShapeAll s' rest with
              | false => simp [hb, hall] at hs
              | true =>
                  have hsub : subHeadDims (a :: rest) = s' := by
                    simp [subHeadDims, subDims_of_shapeOf a s' hb]
                  rw [hsub]
                  simp [matchesShapeList, matchesShape_of_shapeOf a s' hb,
                    matchesShapeList_of_sameShapeAll rest s' hall]
    exact ⟨_, by unfold encodeArray; rw [if_pos hcheck]⟩
  · intro hnone
    have hcheck : matchesShapeList (subHeadDims items) items = false := by
      cases hc : matchesShapeList (subHeadDims items) items with
      | false => rfl
      | true =>
          exfalso
          cases items with
          | nil => simp [shapeOfList] at hnone
          | cons a rest =>
              simp only [matchesShapeList, Bool.and_eq_true, subHeadDims] at hc
              have hb := shapeOf_of_matchesShape a (subDims a) hc.1
              have hall := sameShapeAll_of_matchesShapeList rest (subDims a) hc.2
              simp [shapeOfList, hb, hall] at hnone
    unfold encodeArray
    rw [if_neg (by simp [hcheck])]

/-- C1: for every well-formed value of a supported host type bound to
its canonical OID — bool, bytes, 16/32/64-bit wrapped integers,
NUMERIC decimals, floats, date/time/timestamp/timestamptz, interval,
UUID, IP address, JSON/JSONB trees, geometric types, enum members, and
arrays of these — encoding the value as a bound parameter succeeds and
decoding the stored wire payload at the same type returns the value
back up to the documented normalizations: UUID decodes to its canonical
string form, TIMESTAMPTZ preserves the instant with the offset
normalized to UTC, and enums decode to their string label. -/
theorem c1_supported_value_roundtrip (v : Value) (h : wfValue v = true) :
    ∃ bs, encodeValue v = .ok bs ∧ decodeValue v.typeOf bs = some (normalizeValue v) := by
  cases v with
  | scalar s =>
      refine ⟨encodeScalar s, rfl, ?_⟩
      simp only [wfValue] at h
      simp [decodeValue, Value.typeOf, normalizeValue, decodeScalar_encodeScalar s h]
  | array t items =>
      simp only [wfValue, Bool.and_eq_true, decide_eq_true_eq] at h
      obtain ⟨⟨⟨hwf, hsh⟩, hnd⟩, hdims⟩ := h
      obtain ⟨henc, hdec⟩ := decodeArray_encodeArray t items hwf hsh hnd hdims
      simp only [List.append_assoc] at hdec
      exact ⟨_, henc, by simp [decodeValue, Value.typeOf, normalizeValue, hdec]⟩

/-- A concrete 2 x 2 INT2 array parameter. -/
def sampleArrayValue : Value :=
  .array .int2T
    [.sub [.elem (.int2V 5), .elem (.int2V (-3))],
     .sub [.elem (.int2V 7), .elem (.int2V 10)]]

/-- Witness for C1: the round-trip theorem applied at a concrete
two-dimensional INT2 array. -/
theorem c1_supported_value_roundtrip_witness :
    wfValue sampleArrayValue = true ∧
      ∃ bs, encodeValue sampleArrayValue = .ok bs ∧
        decodeValue sampleArrayValue.typeOf bs = some (normalizeValue sampleArrayValue) :=
  ⟨by decide, c1_supported_value_roundtrip sampleArrayValue (by decide)⟩

/-- C4: encoding a multi-dimensional array parameter succeeds exactly
when the sub-lists at each depth all have identical length (the array
has a consistent shape), and on any ragged array — two sub-lists at the
same depth of different length — it fails with the value-encode error
(`ValueEncodeError`, Python name `PyToRustValueMappingError`). -/
theorem c4_array_encode_ragged (t : ScalarType) (items : List Arr) :
    ((shapeOfList items).isSome = true → ∃ bs, encodeValue (.array t items) = .ok bs) ∧
    ((shapeOfList items).isSome = false →
      encodeValue (.array t items) = .error .pyToRustValueMappingError) := by
  have h := encodeArray_ok_iff_shape t items
  constructor
  · intro hs
    obtain ⟨bs, hbs⟩ := h.1 hs
    exact ⟨bs, by simp [encodeValue, hbs]⟩
  · intro hs
    simp [encodeValue, h.2 hs]

/-- The ragged VARCHAR array of the repository test
`test_incorrect_dimensions_array`: sub-lists of length 3 and 4. -/
def raggedItems : List Arr :=
  [.sub [.elem (.textV "Len"), .elem (.textV "is"), .elem (.textV "Three")],
   .sub [.elem (.textV "Len"), .elem (.textV "is"), .elem (.textV "Four"),
     .elem (.textV "Wow")]]

/-- A well-shaped 2 x 2 VARCHAR array. -/
def squareItems : List Arr :=
  [.sub [.elem (.textV "a"), .elem (.textV "b")],
   .sub [.elem (.textV "c"), .elem (.textV "d")]]

/-- Witness for C4: applied at a well-shaped 2 x 2 array and at the
ragged array of the repository test. -/
theorem c4_array_encode_ragged_witness :
    (∃ bs, encodeValue (.array .textT squareItems) = .ok bs) ∧
      encodeValue (.array .textT raggedItems) = .error .pyToRustValueMappingError :=
  ⟨(c4_array_encode_ragged .textT squareItems).1 (by decide),
   (c4_array_encode_ragged .textT raggedItems).2 (by decide)⟩

/-- The `__all__` export list of `python/psqlpy/exceptions.py`,
transcribed from that source file. -/
def psqlpyExceptionsAll : List String :=
  ["RustPSQLDriverPyBaseError", "DBPoolError", "RustToPyValueMappingError",
   "PyToRustValueMappingError", "TransactionError", "DBPoolConfigurationError",
   "UUIDValueConvertError", "CursorError", "MacAddr6ConversionError"]

/-- The `__all__` export list of `python/psql_rust_driver/exceptions.py`,
transcribed from that source file. -/
def psqlRustDriverExceptionsAll : List String :=
  ["RustPSQLDriverPyBaseError", "DBPoolError", "RustToPyValueMappingError",
   "PyToRustValueMappingError", "DBTransactionError", "DBPoolConfigurationError"]

/-- The nineteen error kinds the claim says the public exceptions
module exposes. -/
def claimedErrorKinds : List String :=
  ["ConnectionPoolError", "ConnectionPoolConfigurationError", "ConnectionError",
   "ConnectionClosedError", "ConnectionExecuteError", "TransactionBeginError",
   "TransactionExecuteError", "TransactionClosedError", "TransactionSavepointError",
   "CursorError", "CursorClosedError", "ListenerStartError", "ListenerClosedError",
   "ValueEncodeError", "ValueDecodeError", "InterfaceError", "UUIDValueConvertError",
   "MacAddrConversionError", "BaseError"]

/-- Counterexample for C8: the claimed and the exported error-kind sets
differ — `InterfaceError` is claimed but absent from
`psqlpy/exceptions.py`, while `DBPoolError` is exported but not
claimed. -/
theorem c8_exceptions_counterexample :
    ("InterfaceError" ∈ claimedErrorKinds ∧ "InterfaceError" ∉ psqlpyExceptionsAll) ∧
      ("DBPoolError" ∈ psqlpyExceptionsAll ∧ "DBPoolError" ∉ claimedErrorKinds) := by
  decide

/-- C8 (amended): the error kinds exposed by the library's public
exceptions module `psqlpy/exceptions.py` are exactly
RustPSQLDriverPyBaseError (root), DBPoolError,
RustToPyValueMappingError, PyToRustValueMappingError, TransactionError,
DBPoolConfigurationError, UUIDValueConvertError, CursorError and
MacAddr6ConversionError. -/
theorem c8_exceptions_exact (s : String) :
    s ∈ psqlpyExceptionsAll ↔
      s = "RustPSQLDriverPyBaseError" ∨ s = "DBPoolError" ∨
      s = "RustToPyValueMappingError" ∨ s = "PyToRustValueMappingError" ∨
      s = "TransactionError" ∨ s = "DBPoolConfigurationError" ∨
      s = "UUIDValueConvertError" ∨ s = "CursorError" ∨
      s = "MacAddr6ConversionError" := by
  simp [psqlpyExceptionsAll]

/-- Modelled from the spec (§3 "Transaction", §4.4): the host-visible
state of a Transaction — whether BEGIN has been issued, whether the
transaction has been terminated, and the declared savepoint names. -/
structure TransactionState where
  begun : Bool
  closed : Bool
  savepoints : List String
deriving DecidableEq, Repr

/-- A fresh transaction handle as `Connection.transaction()` returns
it: BEGIN not yet issued, not closed, no savepoints. -/
def initialTransaction : TransactionState :=
  { begun := false, closed := false, savepoints := [] }

/-- The operations a Transaction accepts after construction. -/
inductive TxOp where
  | beginTx
  | commit
  | rollback
  | execute
  | createSavepoint (name : String)
  | releaseSavepoint (name : String)
  | rollbackSavepoint (name : String)
deriving DecidableEq, Repr

/-- Modelled from the spec (§4.4): the Transaction state machine.
Every operation on a terminated transaction fails with
`TransactionClosedError`, as does a second `begin()`; `execute` does
not require `begin()` to have been issued (the repository test
`test_transaction_begin` executes before `begin()`, its begin-error
assertion commented out); `create_savepoint` is idempotent, re-issuing
a name implicitly releasing and re-declaring it; `release_savepoint`
pops a declared name; `rollback_savepoint` requires the name to be on
the savepoint stack and fails with `TransactionSavepointError`
otherwise. -/
def txStep (tx : TransactionState) : TxOp → Except PsqlError TransactionState
  | .beginTx =>
      if tx.closed then .error .transactionClosedError
      else if tx.begun then .error .transactionClosedError
      else .ok { tx with begun := true }
  | .commit =>
      if tx.closed then .error .transactionClosedError
      else .ok { tx with closed := true }
  | .rollback =>
      if tx.closed then .error .transactionClosedError
      else .ok { tx with closed := true }
  | .execute =>
      if tx.closed then .error .transactionClosedError
      else .ok tx
  | .createSavepoint name =>
      if tx.closed then .error .transactionClosedError
      else .ok { tx with savepoints := name :: tx.savepoints.filter (fun m => m != name) }
  | .releaseSavepoint name =>
      if tx.closed then .error .transactionClosedError
      else if name ∈ tx.savepoints then
        .ok { tx with savepoints := tx.savepoints.filter (fun m => m != name) }
      else .error .transactionSavepointError
  | .rollbackSavepoint name =>
      if tx.closed then .error .transactionClosedError
      else if name ∈ tx.savepoints then .ok tx
      else .error .transactionSavepointError

/-- Modelled from the spec: running a row-returning statement on a
Transaction materializes the rows; the state machine gates only on the
closed flag. -/
def txExecuteQuery (tx : TransactionState) (rows : List α) :
    Except PsqlError (List α × TransactionState) :=
  if tx.closed then .error .transactionClosedError else .ok (rows, tx)

/-- C5: once `commit()` or `rollback()` has completed on a Transaction,
every subsequent operation on that Transaction fails with
`TransactionClosedError`. -/
theorem c5_closed_after_commit_rollback (tx tx' : TransactionState) (op : TxOp)
    (h : txStep tx .commit = .ok tx' ∨ txStep tx .rollback = .ok tx') :
    txStep tx' op = .error .transactionClosedError := by
  have hc : tx'.closed = true := by
    rcases h with h | h <;>
      (simp only [txStep] at h
       by_cases hcl : tx.closed = true
       · simp [hcl] at h
       · simp only [Bool.not_eq_true] at hcl
         simp only [hcl, Bool.false_eq_true, if_false, Except.ok.injEq] at h
         rw [← h])
  cases op <;> simp [txStep, hc]

/-- Witness for C5: after committing a fresh begun transaction,
`execute` fails with `TransactionClosedError`. -/
theorem c5_closed_after_commit_rollback_witness :
    (txStep ⟨true, false, []⟩ .commit = .ok ⟨true, true, []⟩ ∨
      txStep ⟨true, false, []⟩ .rollback = .ok ⟨true, true, []⟩) ∧
    txStep ⟨true, true, []⟩ .execute = .error .transactionClosedError :=
  ⟨Or.inl rfl,
   c5_closed_after_commit_rollback ⟨true, false, []⟩ ⟨true, true, []⟩ .execute (Or.inl rfl)⟩

/-- C9: calling `execute` on a Transaction whose `begin()` has not been
called raises no transaction-begin error: the statement runs and its
result is returned. -/
theorem c9_execute_before_begin (tx : TransactionState) (rows : List α)
    (_hb : tx.begun = false) (hc : tx.closed = false) :
    txExecuteQuery tx rows = .ok (rows, tx) := by
  simp [txExecuteQuery, hc]

/-- Witness for C9: a fresh, never-begun transaction executes a query
and returns its rows. -/
theorem c9_execute_before_begin_witness :
    initialTransaction.begun = false ∧ initialTransaction.closed = false ∧
      txExecuteQuery initialTransaction [1, 2, 3] = .ok ([1, 2, 3], initialTransaction) :=
  ⟨rfl, rfl, c9_execute_before_begin initialTransaction [1, 2, 3] rfl rfl⟩

/-- C6: `create_savepoint(name)` is idempotent — re-issuing the same
name succeeds, implicitly releasing and re-declaring the savepoint;
after `release_savepoint(name)` the same name can be created again;
and `rollback_savepoint(name)` succeeds exactly when the name is on
the savepoint stack, failing with `TransactionSavepointError`
otherwise. -/
theorem c6_savepoint_discipline (tx : TransactionState) (name : String)
    (hc : tx.closed = false) :
    (∀ tx', txStep tx (.createSavepoint name) = .ok tx' →
        ∃ u, txStep tx' (.createSavepoint name) = .ok u) ∧
    (∀ tx' tx'', txStep tx (.createSavepoint name) = .ok tx' →
        txStep tx' (.releaseSavepoint name) = .ok tx'' →
        ∃ u, txStep tx'' (.createSavepoint name) = .ok u) ∧
    ((∃ u, txStep tx (.rollbackSavepoint name) = .ok u) ↔ name ∈ tx.savepoints) ∧
    (name ∉ tx.savepoints →
      txStep tx (.rollbackSavepoint name) = .error .transactionSavepointError) := by
  refine ⟨?_, ?_, ?_, ?_⟩
  · intro tx' h
    simp only [txStep, hc, Bool.false_eq_true, if_false, Except.ok.injEq] at h
    have hcl : tx'.closed = false := by rw [← h]
    exact ⟨{ tx' with savepoints := name :: tx'.savepoints.filter (fun m => m != name) },
      by simp [txStep, hcl]⟩
  · intro tx' tx'' h h2
    simp only [txStep, hc, Bool.false_eq_true, if_false, Except.ok.injEq] at h
    have hcl : tx'.closed = false := by rw [← h]
    simp only [txStep, hcl, Bool.false_eq_true, if_false] at h2
    by_cases hm : name ∈ tx'.savepoints
    · simp only [hm, if_true, Except.ok.injEq] at h2
      have hcl2 : tx''.closed = false := by rw [← h2, ← h]
      exact ⟨{ tx'' with savepoints := name :: tx''.savepoints.filter (fun m => m != name) },
        by simp [txStep, hcl2]⟩
    · simp [hm] at h2
  · by_cases hm : name ∈ tx.savepoints <;> simp [txStep, hc, hm]
  · intro hm
    simp [txStep, hc, hm]

/-- Witness for C6: on an open transaction holding savepoint "sp2",
the savepoint discipline applies (creating "sp1" twice, recreating it
after release, and rolling back to an undeclared name failing). -/
theorem c6_savepoint_discipline_witness :
    (⟨true, false, ["sp2"]⟩ : TransactionState).closed = false ∧
      ((∀ tx', txStep ⟨true, false, ["sp2"]⟩ (.createSavepoint "sp1") = .ok tx' →
          ∃ u, txStep tx' (.createSavepoint "sp1") = .ok u) ∧
       (∀ tx' tx'', txStep ⟨true, false, ["sp2"]⟩ (.createSavepoint "sp1") = .ok tx' →
          txStep tx' (.releaseSavepoint "sp1") = .ok tx'' →
          ∃ u, txStep tx'' (.createSavepoint "sp1") = .ok u) ∧
       ((∃ u, txStep ⟨true, false, ["sp2"]⟩ (.rollbackSavepoint "sp1") = .ok u) ↔
          "sp1" ∈ (⟨true, false, ["sp2"]⟩ : TransactionState).savepoints) ∧
       ("sp1" ∉ (⟨true, false, ["sp2"]⟩ : TransactionState).savepoints →
          txStep ⟨true, false, ["sp2"]⟩ (.rollbackSavepoint "sp1") =
            .error .transactionSavepointError)) :=
  ⟨rfl, c6_savepoint_discipline ⟨true, false, ["sp2"]⟩ "sp1" rfl⟩

/-- Modelled from the spec (§4.3) and the repository tests: `fetch_row`
materializes exactly one row and fails otherwise; the failing error
kind is the caller-facing kind passed in by the Connection or the
Transaction wrapper. -/
def fetchRowCore (rows : List α) (e : PsqlError) : Except PsqlError α :=
  match rows with
  | [x] => .ok x
  | _ => .error e

/-- `Connection.fetch_row`: the repository test
`test_connection_fetch_row_more_than_one_row` pins the error kind to
`ConnectionExecuteError`. -/
def connFetchRow (rows : List α) : Except PsqlError α :=
  fetchRowCore rows .connectionExecuteError

/-- `Transaction.fetch_row`: the repository test
`test_transaction_fetch_row_more_than_one_row` pins the error kind to
`InterfaceError`. -/
def txFetchRow (rows : List α) : Except PsqlError α :=
  fetchRowCore rows .interfaceError

/-- Counterexample for C2: on a two-row result, `Connection.fetch_row`
fails with `ConnectionExecuteError`, not with the claimed
`InterfaceError`. -/
theorem c2_fetch_row_counterexample :
    connFetchRow ([10, 20] : List Nat) = .error .connectionExecuteError ∧
      connFetchRow ([10, 20] : List Nat) ≠ .error .interfaceError := by
  constructor
  · rfl
  · intro h
    simp [connFetchRow, fetchRowCore] at h

/-- C2 (amended): for every query result with a number of rows
different from one, `fetch_row` fails — with `ConnectionExecuteError`
on a Connection and with `InterfaceError` inside a Transaction; with
exactly one row both return it. -/
theorem c2_fetch_row_single (rows : List α) :
    (rows.length ≠ 1 →
      connFetchRow rows = .error .connectionExecuteError ∧
        txFetchRow rows = .error .interfaceError) ∧
    (∀ x, rows = [x] → connFetchRow rows = .ok x ∧ txFetchRow rows = .ok x) := by
  constructor
  · intro h
    match rows, h with
    | [], _ => exact ⟨rfl, rfl⟩
    | [x], h => simp at h
    | x :: y :: rest, _ => exact ⟨rfl, rfl⟩
  · rintro x rfl
    exact ⟨rfl, rfl⟩

/-- Witness for C2 (amended): a two-row result fails on both paths with
the respective error kinds. -/
theorem c2_fetch_row_single_witness :
    ([10, 20] : List Nat).length ≠ 1 ∧
      (connFetchRow ([10, 20] : List Nat) = .error .connectionExecuteError ∧
        txFetchRow ([10, 20] : List Nat) = .error .interfaceError) :=
  ⟨by decide, (c2_fetch_row_single [10, 20]).1 (by decide)⟩

/-- Modelled from the spec (§4.3): `execute_many` wraps the parameter
sets in one implicit transaction — an empty list fails with
`TransactionExecuteError`; a non-empty list appends every parameter
tuple as a table row atomically. -/
def executeMany (table : List (List Int)) (paramSets : List (List Int)) :
    Except PsqlError (List (List Int)) :=
  if paramSets.isEmpty then .error .transactionExecuteError
  else .ok (table ++ paramSets)

/-- `Connection.execute_many`. -/
def connExecuteMany (table paramSets : List (List Int)) :
    Except PsqlError (List (List Int)) :=
  executeMany table paramSets

/-- `Transaction.execute_many`: gates on the closed flag and runs the
same implicit transaction. -/
def txExecuteMany (tx : TransactionState) (table paramSets : List (List Int)) :
    Except PsqlError (List (List Int) × TransactionState) :=
  if tx.closed then .error .transactionClosedError
  else
    match executeMany table paramSets with
    | .ok t' => .ok (t', tx)
    | .error e => .error e

/-- C3: `execute_many` with an empty list of parameter sets fails with
`TransactionExecuteError` on both the Connection and the Transaction
path; with a non-empty list of `n` parameter sets for an INSERT, all
`n` executions are applied inside one implicit transaction, so on
success the table's row count grows by exactly `n`. -/
theorem c3_execute_many (tx : TransactionState) (table paramSets : List (List Int))
    (hc : tx.closed = false) :
    (paramSets = [] →
      connExecuteMany table [] = .error .transactionExecuteError ∧
        txExecuteMany tx table [] = .error .transactionExecuteError) ∧
    (paramSets ≠ [] →
      ∃ t', connExecuteMany table paramSets = .ok t' ∧
        txExecuteMany tx table paramSets = .ok (t', tx) ∧
        t'.length = table.length + paramSets.length) := by
  constructor
  · intro _
    refine ⟨rfl, ?_⟩
    simp [txExecuteMany, executeMany, hc]
  · intro hne
    refine ⟨table ++ paramSets, ?_, ?_, by simp⟩
    · simp [connExecuteMany, executeMany, List.isEmpty_iff, hne]
    · simp [txExecuteMany, executeMany, List.isEmpty_iff, hne, hc]

/-- Witness for C3: inserting two parameter sets into an empty table
grows it to two rows. -/
theorem c3_execute_many_witness :
    initialTransaction.closed = false ∧ (([[1], [2]] : List (List Int)) ≠ []) ∧
      (∃ t', connExecuteMany [] [[1], [2]] = .ok t' ∧
        txExecuteMany initialTransaction [] [[1], [2]] = .ok (t', initialTransaction) ∧
        t'.length = ([] : List (List Int)).length + ([[1], [2]] : List (List Int)).length) :=
  ⟨rfl, by decide, (c3_execute_many initialTransaction [] [[1], [2]] rfl).2 (by decide)⟩

/-- Cursor position per the spec's data model (§3 "Cursor"). -/
inductive CursorPos where
  | beforeFirst
  | atRow (n : Nat)
  | afterLast
deriving DecidableEq, Repr

/-- Modelled from the spec: a server-side cursor over a fixed result
set — the declared SELECT's rows and the current position (1-based
when on a row). -/
structure CursorState (α : Type) where
  rows : List α
  pos : CursorPos

/-- Modelled from the spec: `fetch_forward_all` returns every row after
the current position and leaves the cursor after the last row. -/
def fetchForwardAll (c : CursorState α) : List α × CursorState α :=
  match c.pos with
  | .beforeFirst => (c.rows, { c with pos := .afterLast })
  | .atRow n => (c.rows.drop n, { c with pos := .afterLast })
  | .afterLast => ([], c)

/-- Modelled from the spec: `fetch_absolute(k)` per PostgreSQL FETCH
ABSOLUTE semantics — positions on row `k` (1-based) and returns it; a
negative `k` counts from the end of the result set (`-1` is the last
row); an out-of-range position yields no row. -/
def fetchAbsolute (c : CursorState α) (k : Int) : List α × CursorState α :=
  if 0 < k then
    let i := k.toNat
    if i ≤ c.rows.length then ((c.rows.drop (i - 1)).take 1, { c with pos := .atRow i })
    else ([], { c with pos := .afterLast })
  else if k < 0 then
    let j := (-k).toNat
    if j ≤ c.rows.length then
      let i := c.rows.length - j + 1
      ((c.rows.drop (i - 1)).take 1, { c with pos := .atRow i })
    else ([], { c with pos := .beforeFirst })
  else ([], { c with pos := .beforeFirst })

theorem drop_length_sub_one (l : List α) (x : α) (h : l.getLast? = some x) :
    l.drop (l.length - 1) = [x] := by
  induction l with
  | nil => simp at h
  | cons a tl ih =>
      cases tl with
      | nil =>
          simp only [List.getLast?_singleton, Option.some.injEq] at h
          subst h
          simp
      | cons b tl2 =>
          rw [List.getLast?_cons_cons] at h
          have hrec := ih h
          simp only [List.length_cons] at hrec ⊢
          rw [show tl2.length + 1 + 1 - 1 = (tl2.length + 1 - 1) + 1 from by omega,
            List.drop_succ_cons]
          exact hrec

/-- C7: on a Cursor at BeforeFirst over a fixed result set,
`fetch_absolute(1)` returns exactly the first row `fetch_forward_all`
would return; a negative absolute index counts from the end — for
`1 ≤ j ≤ n`, `fetch_absolute(-j)` returns the `j`-th row from the end,
and in particular `fetch_absolute(-1)` returns the last row. -/
theorem c7_fetch_absolute (rows : List α) (j : Nat)
    (hj1 : 1 ≤ j) (hj2 : j ≤ rows.length) :
    (fetchAbsolute ⟨rows, .beforeFirst⟩ 1).1 =
      (fetchForwardAll ⟨rows, .beforeFirst⟩).1.take 1 ∧
    (fetchAbsolute ⟨rows, .beforeFirst⟩ (-(j : Int))).1 =
      (rows.drop (rows.length - j)).take 1 ∧
    (∀ x, rows.getLast? = some x →
      (fetchAbsolute ⟨rows, .beforeFirst⟩ (-1)).1 = [x]) := by
  have hlen : 1 ≤ rows.length := le_trans hj1 hj2
  refine ⟨?_, ?_, ?_⟩
  · simp only [fetchAbsolute, fetchForwardAll]
    norm_num
    rw [if_pos (by simpa using hlen)]
  · have hne : ¬ (0 : Int) < -(j : Int) := by omega
    have hlt : -(j : Int) < 0 := by omega
    simp only [fetchAbsolute, if_neg hne, if_pos hlt, neg_neg, Int.toNat_natCast]
    rw [if_pos (by simpa using hj2)]
    simp only
    rw [show rows.length - j + 1 - 1 = rows.length - j from by omega]
  · intro x hx
    have hne : ¬ (0 : Int) < (-1 : Int) := by omega
    have hlt : (-1 : Int) < 0 := by omega
    simp only [fetchAbsolute, if_neg hne, if_pos hlt]
    norm_num
    rw [if_pos hlen]
    rw [drop_length_sub_one rows x hx]
    simp

/-- Witness for C7 over the result set `[10, 20, 30]` with `j = 2`. -/
theorem c7_fetch_absolute_witness :
    1 ≤ 2 ∧ 2 ≤ ([10, 20, 30] : List Nat).length ∧
      ((fetchAbsolute ⟨[10, 20, 30], .beforeFirst⟩ 1).1 =
        (fetchForwardAll ⟨([10, 20, 30] : List Nat), .beforeFirst⟩).1.take 1 ∧
      (fetchAbsolute ⟨([10, 20, 30] : List Nat), .beforeFirst⟩ (-(2 : Nat) : Int)).1 =
        (([10, 20, 30] : List Nat).drop (([10, 20, 30] : List Nat).length - 2)).take 1 ∧
      (∀ x, ([10, 20, 30] : List Nat).getLast? = some x →
        (fetchAbsolute ⟨([10, 20, 30] : List Nat), .beforeFirst⟩ (-1)).1 = [x])) :=
  ⟨by decide, by decide, c7_fetch_absolute [10, 20, 30] 2 (by decide) (by decide)⟩

/-- Modelled from the spec (§4.6): the pool's counters — idle
connections available for acquisition, handles currently held by
callers, and the configured bound. -/
structure PoolState where
  maxSize : Nat
  available : Nat
  held : Nat
deriving DecidableEq, Repr

/-- Modelled from the spec: the session-scope state the frame claim
ranges over — the pool, the transaction on the acquired connection,
and whether a cursor on it is open. -/
structure SessionWorld where
  pool : PoolState
  tx : TransactionState
  cursorOpen : Bool

/-- Acquiring pops an idle connection, or dials a new one while
capacity remains, handing the caller a scoped handle. -/
def acquireConn (p : PoolState) : Option PoolState :=
  if 0 < p.available then some { p with available := p.available - 1, held := p.held + 1 }
  else if p.held < p.maxSize then some { p with held := p.held + 1 }
  else none

/-- Releasing the scoped handle at the end of its scope returns the
connection to the pool's idle set. -/
def releaseConn (p : PoolState) : PoolState :=
  { p with available := p.available + 1, held := p.held - 1 }

/-- `Transaction.commit()`: terminates the transaction on the wire;
the connection stays with the caller's scoped handle. -/
def commitStep (w : SessionWorld) : Except PsqlError SessionWorld :=
  match txStep w.tx .commit with
  | .ok tx' => .ok { w with tx := tx' }
  | .error e => .error e

/-- `Cursor.close()`: closes the portal; the connection stays with the
caller's scoped handle. -/
def closeCursorStep (w : SessionWorld) : SessionWorld :=
  { w with cursorOpen := false }

/-- End of the acquire scope: the handle is dropped and the underlying
connection re-enters the pool. -/
def releaseStep (w : SessionWorld) : SessionWorld :=
  { w with pool := releaseConn w.pool }

/-- C10: committing a Transaction or closing a Cursor leaves the pool's
available-connection count unchanged; `available` grows by one exactly
when the scoped Connection handle itself is released at the end of its
acquire scope. -/
theorem c10_pool_frame (w w' : SessionWorld) (hcommit : commitStep w = .ok w') :
    w'.pool.available = w.pool.available ∧
    (closeCursorStep w).pool.available = w.pool.available ∧
    (releaseStep w).pool.available = w.pool.available + 1 := by
  refine ⟨?_, rfl, rfl⟩
  unfold commitStep at hcommit
  cases htx : txStep w.tx .commit with
  | ok tx' =>
      rw [htx] at hcommit
      simp only [Except.ok.injEq] at hcommit
      rw [← hcommit]
  | error e =>
      rw [htx] at hcommit
      simp at hcommit

/-- Witness for C10: a held connection with a begun transaction —
commit leaves `available` at 0, cursor close leaves it at 0, and the
handle release raises it to 1. -/
theorem c10_pool_frame_witness :
    commitStep ⟨⟨2, 0, 1⟩, ⟨true, false, []⟩, true⟩ =
      .ok ⟨⟨2, 0, 1⟩, ⟨true, true, []⟩, true⟩ ∧
    ((⟨⟨2, 0, 1⟩, ⟨true, true, []⟩, true⟩ : SessionWorld).pool.available =
        (⟨⟨2, 0, 1⟩, ⟨true, false, []⟩, true⟩ : SessionWorld).pool.available ∧
      (closeCursorStep ⟨⟨2, 0, 1⟩, ⟨true, false, []⟩, true⟩).pool.available =
        (⟨⟨2, 0, 1⟩, ⟨true, false, []⟩, true⟩ : SessionWorld).pool.available ∧
      (releaseStep ⟨⟨2, 0, 1⟩, ⟨true, false, []⟩, true⟩).pool.available =
        (⟨⟨2, 0, 1⟩, ⟨true, false, []⟩, true⟩ : SessionWorld).pool.available + 1) :=
  ⟨rfl, c10_pool_frame ⟨⟨2, 0, 1⟩, ⟨true, false, []⟩, true⟩
    ⟨⟨2, 0, 1⟩, ⟨true, true, []⟩, true⟩ rfl⟩

end Psqlpy
